import Mathlib

/-!
RDRAM controller (Controller.c): shallow embedding.

The controller state of `struct RDRAMController` is a record of the bus
handle, the RAM buffer and the two register banks.  Every bus-facing entry
point of Controller.c is a function on that record; an entry point that
stores through its `_data` pointer returns the stored value next to its
`int` status, an entry point that changes the controller returns the new
controller next to its status.

C leaves accesses outside an array undefined.  The lists used here make such
an access a default read or an ignored store; every theorem below about what
an access reads or stores carries the bounds under which the C code is
defined, so that totalisation is never relied upon there.
-/

namespace RDRAM

/-! ## Address.h -/

def RDRAM_BASE_ADDRESS : Nat := 0x00000000
def RDRAM_ADDRESS_LEN : Nat := 0x00800000

def RDRAM_REGS_BASE_ADDRESS : Nat := 0x03F00000
def RDRAM_REGS_ADDRESS_LEN : Nat := 0x00000028

def RI_REGS_BASE_ADDRESS : Nat := 0x04700000
def RI_REGS_ADDRESS_LEN : Nat := 0x00000020

/-! ## Machine words and bytes -/

/-- A `uint8_t`. -/
abbrev Byte := Fin 256

/-- Conversion to `uint8_t`: the low eight bits. -/
def toByte (n : Nat) : Byte := ⟨n % 256, Nat.mod_lt n (by decide)⟩

/-- Subtraction of two `uint32_t` values (wraps modulo 2^32). -/
def sub32 (a b : Nat) : Nat := (a + 2 ^ 32 - b) % 2 ^ 32

/-- Byte order of the machine the simulator runs on. It fixes how `memcpy`
lays out a multi-byte integer object. -/
inductive HostOrder where
  | littleEndian
  | bigEndian
  deriving DecidableEq, Repr

/-- The `w` low-order bytes of `x`, least significant first. -/
def leBytes : Nat → Nat → List Byte
  | 0, _ => []
  | w + 1, x => toByte x :: leBytes w (x / 256)

/-- The number whose bytes, least significant first, are `bs`. -/
def leValue : List Byte → Nat
  | [] => 0
  | b :: bs => b.val + 256 * leValue bs

/-- Object representation of a `w`-byte unsigned integer `x` on the host: the
bytes `memcpy` reads out of `&x`, lowest address first. -/
def objectBytes (h : HostOrder) (w x : Nat) : List Byte :=
  match h with
  | .littleEndian => leBytes w x
  | .bigEndian => (leBytes w x).reverse

/-- Value of the unsigned integer object whose bytes, lowest address first,
are `bs`: what a host variable holds after `memcpy` into it. -/
def objectValue (h : HostOrder) (bs : List Byte) : Nat :=
  match h with
  | .littleEndian => leValue bs
  | .bigEndian => leValue bs.reverse

/-- Reversal of the `w` low-order bytes of `x` (the effect of
`__builtin_bswap16/32/64` for `w` = 2, 4, 8). -/
def byteReverse : Nat → Nat → Nat
  | 0, _ => 0
  | w + 1, x => (x % 256) * 256 ^ w + byteReverse w (x / 256)

/-- Modelled from the spec: `ByteOrderSwap16`, `ByteOrderSwap32` and
`ByteOrderSwap64` are macros of Common.h, which is not among the sources.
Following section 4.2 they convert a `w`-byte value between the big-endian
order of the emulated target and the native order of the host: a byte reversal
on a little-endian host, the identity on a big-endian one. -/
def ByteOrderSwap (h : HostOrder) (w x : Nat) : Nat :=
  match h with
  | .littleEndian => byteReverse w x
  | .bigEndian => x

/-! ## memcpy on the RAM buffer -/

/-- Effect of `memcpy(mem + off, src, n)` on the destination buffer, `src`
being the `n` source bytes. -/
def memcpyTo : List Byte → Nat → List Byte → List Byte
  | mem, _, [] => mem
  | mem, off, b :: bs => memcpyTo (mem.set off b) (off + 1) bs

/-- The bytes `memcpy(dest, mem + off, n)` delivers to `dest`. -/
def memcpyFrom (mem : List Byte) (off n : Nat) : List Byte :=
  (mem.drop off).take n

/-! ## Controller.h -/

/-- The enumerations `enum RIRegister` and `enum RDRAMRegister`. Their
enumerators come from Registers.md and RDRAMRegisters.md through the
`X(reg) reg,` expansion; those two lists are not among the sources, so the
enumerators that Controller.c names are parameters here. An enumerator list
without initialisers numbers its members consecutively from zero and the
closing `NUM_..._REGISTERS` follows the last one: the named members are
pairwise different and below the count. -/
structure RegisterEnums where
  NUM_RI_REGISTERS : Nat
  NUM_RDRAM_REGISTERS : Nat
  RI_MODE_REG : Nat
  RI_CONFIG_REG : Nat
  RI_SELECT_REG : Nat
  RI_REFRESH_REG : Nat
  mode_lt : RI_MODE_REG < NUM_RI_REGISTERS
  config_lt : RI_CONFIG_REG < NUM_RI_REGISTERS
  select_lt : RI_SELECT_REG < NUM_RI_REGISTERS
  refresh_lt : RI_REFRESH_REG < NUM_RI_REGISTERS
  mode_ne_config : RI_MODE_REG ≠ RI_CONFIG_REG
  mode_ne_select : RI_MODE_REG ≠ RI_SELECT_REG
  mode_ne_refresh : RI_MODE_REG ≠ RI_REFRESH_REG
  config_ne_select : RI_CONFIG_REG ≠ RI_SELECT_REG
  config_ne_refresh : RI_CONFIG_REG ≠ RI_REFRESH_REG
  select_ne_refresh : RI_SELECT_REG ≠ RI_REFRESH_REG

/-- The `struct RDRAMController`. `bus` is the `struct BusController *`
(`none` for `NULL`), `memory` the buffer `memory` points to, `regs` and
`rdramregs` the two `uint32_t` arrays. -/
structure RDRAMController where
  bus : Option Nat
  memory : List Byte
  regs : List Nat
  rdramregs : List Nat

/-- The `struct UnalignedData`: a `uint32_t data` and a `size_t size`. -/
structure UnalignedData where
  data : Nat
  size : Nat

/-- Contents of the host process's address space as `memcpy` sees it through a
raw pointer: the byte at an absolute host address, `none` where nothing is
mapped. -/
abbrev HostSpace := Nat → Option Byte

/-- The `n` bytes `memcpy` reads starting at host address `p`; `none` when one
of them is unmapped (the process faults and the call does not return). -/
def hostLoad (hs : HostSpace) : Nat → Nat → Option (List Byte)
  | _, 0 => some []
  | p, n + 1 =>
    match hs p, hostLoad hs (p + 1) n with
    | some b, some bs => some (b :: bs)
    | _, _ => none

/-! ## Controller.c -/

/-- ConnectRDRAMToBus: `rdram->bus = bus`. -/
def ConnectRDRAMToBus (rdram : RDRAMController) (bus : Nat) : RDRAMController :=
  { rdram with bus := some bus }

/-- CopyFromDRAM: `memcpy(dest, rdram->memory + source, size)`; the result is
the content of `dest`. -/
def CopyFromDRAM (rdram : RDRAMController) (source size : Nat) : List Byte :=
  memcpyFrom rdram.memory source size

/-- CopyToDRAM: `memcpy(rdram->memory + dest, source, size)`, `source` being
the caller's buffer. -/
def CopyToDRAM (rdram : RDRAMController) (dest : Nat) (source : List Byte)
    (size : Nat) : RDRAMController :=
  { rdram with memory := memcpyTo rdram.memory dest (source.take size) }

/-- GetRDRAMMemoryPointer: `return controller->memory`, the buffer itself. -/
def GetRDRAMMemoryPointer (controller : RDRAMController) : List Byte :=
  controller.memory

/-- InitRDRAM. The first `memset` clears the whole structure, the second one
the `RDRAM_ADDRESS_LEN` bytes behind it, so nothing of the allocation's
previous content survives; then four interface registers are assigned in the
order of the source. (`RDPSetRDRAMPointer` hands the buffer to the video
system and does not touch the controller.) -/
def InitRDRAM (E : RegisterEnums) : RDRAMController :=
  let c0 : RDRAMController :=
    { bus := none
      memory := []
      regs := List.replicate E.NUM_RI_REGISTERS 0
      rdramregs := List.replicate E.NUM_RDRAM_REGISTERS 0 }
  let c1 := { c0 with memory := List.replicate RDRAM_ADDRESS_LEN (0 : Byte) }
  let c2 := { c1 with regs := c1.regs.set E.RI_MODE_REG 0xE }
  let c3 := { c2 with regs := c2.regs.set E.RI_CONFIG_REG 0x40 }
  let c4 := { c3 with regs := c3.regs.set E.RI_SELECT_REG 0x14 }
  { c4 with regs := c4.regs.set E.RI_REFRESH_REG 0x63634 }

/-- CreateRDRAM: `none` when `malloc` returns `NULL`, otherwise the
initialised controller. -/
def CreateRDRAM (E : RegisterEnums) (mallocSucceeds : Bool) : Option RDRAMController :=
  if mallocSucceeds then some (InitRDRAM E) else none

/-- RDRAMReadByte. A one-byte object is its own representation whatever the
host order, and no swap is applied. -/
def RDRAMReadByte (controller : RDRAMController) (address : Nat) : Int × Nat :=
  let address := sub32 address RDRAM_BASE_ADDRESS
  let byte := leValue (memcpyFrom controller.memory address 1)
  (0, byte)

/-- RDRAMReadDWord. -/
def RDRAMReadDWord (h : HostOrder) (controller : RDRAMController) (address : Nat) :
    Int × Nat :=
  let address := sub32 address RDRAM_BASE_ADDRESS
  let dword := objectValue h (memcpyFrom controller.memory address 8)
  (0, ByteOrderSwap h 8 dword)

/-- RDRAMReadHWord. -/
def RDRAMReadHWord (h : HostOrder) (controller : RDRAMController) (address : Nat) :
    Int × Nat :=
  let address := sub32 address RDRAM_BASE_ADDRESS
  let hword := objectValue h (memcpyFrom controller.memory address 2)
  (0, ByteOrderSwap h 2 hword)

/-- RDRAMReadWord. -/
def RDRAMReadWord (h : HostOrder) (controller : RDRAMController) (address : Nat) :
    Int × Nat :=
  let address := sub32 address RDRAM_BASE_ADDRESS
  let word := objectValue h (memcpyFrom controller.memory address 4)
  (0, ByteOrderSwap h 4 word)

/-- RDRAMRegRead. -/
def RDRAMRegRead (controller : RDRAMController) (address : Nat) : Int × Nat :=
  let address := sub32 address RDRAM_REGS_BASE_ADDRESS
  let reg := address / 4
  (0, controller.rdramregs.getD reg 0)

/-- RDRAMRegWrite; `data` is the `uint32_t` behind `_data`. -/
def RDRAMRegWrite (controller : RDRAMController) (address data : Nat) :
    Int × RDRAMController :=
  let address := sub32 address RDRAM_REGS_BASE_ADDRESS
  let reg := address / 4
  (0, { controller with rdramregs := controller.rdramregs.set reg (data % 2 ^ 32) })

/-- RDRAMWriteByte; `data` is the `uint8_t` behind `_data`. -/
def RDRAMWriteByte (controller : RDRAMController) (address data : Nat) :
    Int × RDRAMController :=
  let address := sub32 address RDRAM_BASE_ADDRESS
  let byte := data % 2 ^ 8
  (0, { controller with memory := memcpyTo controller.memory address [toByte byte] })

/-- RDRAMWriteDWord; `data` is the `uint64_t` behind `_data`. -/
def RDRAMWriteDWord (h : HostOrder) (controller : RDRAMController) (address data : Nat) :
    Int × RDRAMController :=
  let address := sub32 address RDRAM_BASE_ADDRESS
  let dword := ByteOrderSwap h 8 (data % 2 ^ 64)
  (0, { controller with memory := memcpyTo controller.memory address (objectBytes h 8 dword) })

/-- RDRAMWriteHWord; `data` is the `uint16_t` behind `_data`. -/
def RDRAMWriteHWord (h : HostOrder) (controller : RDRAMController) (address data : Nat) :
    Int × RDRAMController :=
  let address := sub32 address RDRAM_BASE_ADDRESS
  let hword := ByteOrderSwap h 2 (data % 2 ^ 16)
  (0, { controller with memory := memcpyTo controller.memory address (objectBytes h 2 hword) })

/-- RDRAMWriteWord; `data` is the `uint32_t` behind `_data`. -/
def RDRAMWriteWord (h : HostOrder) (controller : RDRAMController) (address data : Nat) :
    Int × RDRAMController :=
  let address := sub32 address RDRAM_BASE_ADDRESS
  let word := ByteOrderSwap h 4 (data % 2 ^ 32)
  (0, { controller with memory := memcpyTo controller.memory address (objectBytes h 4 word) })

/-- RDRAMWriteWordUnaligned. The source hands `data->data`, an integer, to
`memcpy` as the source pointer (not `&data->data`): the bytes copied are the
`data->size` bytes found in the host's address space at the address whose
number is the data word. -/
def RDRAMWriteWordUnaligned (hs : HostSpace) (controller : RDRAMController)
    (address : Nat) (data : UnalignedData) : Option (Int × RDRAMController) :=
  let address := sub32 address RDRAM_BASE_ADDRESS
  match hostLoad hs data.data data.size with
  | none => none
  | some src => some (0, { controller with memory := memcpyTo controller.memory address src })

/-- RIRegRead. -/
def RIRegRead (controller : RDRAMController) (address : Nat) : Int × Nat :=
  let address := sub32 address RI_REGS_BASE_ADDRESS
  let reg := address / 4
  (0, controller.regs.getD reg 0)

/-- RIRegWrite; `data` is the `uint32_t` behind `_data`. -/
def RIRegWrite (controller : RDRAMController) (address data : Nat) :
    Int × RDRAMController :=
  let address := sub32 address RI_REGS_BASE_ADDRESS
  let reg := address / 4
  (0, { controller with regs := controller.regs.set reg (data % 2 ^ 32) })

/-! ## Access widths -/

/-- The four transfer widths of the RAM entry points. -/
inductive Width where
  | byte
  | hword
  | word
  | dword
  deriving DecidableEq, Repr

/-- Number of bytes of a transfer width. -/
def Width.size : Width → Nat
  | .byte => 1
  | .hword => 2
  | .word => 4
  | .dword => 8

/-- The RAM read entry point of the given width. -/
def ramRead (h : HostOrder) (w : Width) (c : RDRAMController) (address : Nat) : Int × Nat :=
  match w with
  | .byte => RDRAMReadByte c address
  | .hword => RDRAMReadHWord h c address
  | .word => RDRAMReadWord h c address
  | .dword => RDRAMReadDWord h c address

/-- The RAM write entry point of the given width. -/
def ramWrite (h : HostOrder) (w : Width) (c : RDRAMController) (address data : Nat) :
    Int × RDRAMController :=
  match w with
  | .byte => RDRAMWriteByte c address data
  | .hword => RDRAMWriteHWord h c address data
  | .word => RDRAMWriteWord h c address data
  | .dword => RDRAMWriteDWord h c address data

/-- An enumeration used to evaluate the definitions: eight interface
registers and ten device registers. -/
def sampleEnums : RegisterEnums where
  NUM_RI_REGISTERS := 8
  NUM_RDRAM_REGISTERS := 10
  RI_MODE_REG := 0
  RI_CONFIG_REG := 1
  RI_SELECT_REG := 3
  RI_REFRESH_REG := 4
  mode_lt := by decide
  config_lt := by decide
  select_lt := by decide
  refresh_lt := by decide
  mode_ne_config := by decide
  mode_ne_select := by decide
  mode_ne_refresh := by decide
  config_ne_select := by decide
  config_ne_refresh := by decide
  select_ne_refresh := by decide

/-! ## The entry points as transitions of the controller -/

/-- A call of one of the entry points of Controller.c with its arguments, the
controller apart. -/
inductive Call where
  | ConnectRDRAMToBus (bus : Nat)
  | CopyFromDRAM (source size : Nat)
  | CopyToDRAM (dest : Nat) (source : List Byte) (size : Nat)
  | GetRDRAMMemoryPointer
  | RDRAMReadByte (address : Nat)
  | RDRAMReadDWord (address : Nat)
  | RDRAMReadHWord (address : Nat)
  | RDRAMReadWord (address : Nat)
  | RDRAMRegRead (address : Nat)
  | RDRAMRegWrite (address data : Nat)
  | RDRAMWriteByte (address data : Nat)
  | RDRAMWriteDWord (address data : Nat)
  | RDRAMWriteHWord (address data : Nat)
  | RDRAMWriteWord (address data : Nat)
  | RDRAMWriteWordUnaligned (address : Nat) (data : UnalignedData)
  | RIRegRead (address : Nat)
  | RIRegWrite (address data : Nat)

/-- What a call hands to its caller: nothing (`void`), a buffer of bytes (the
`dest` of `CopyFromDRAM`, the view of `GetRDRAMMemoryPointer`), an `int`
status, or a status with the value stored through `_data`. -/
inductive Output where
  | void
  | buffer (bytes : List Byte)
  | status (code : Int)
  | data (code : Int) (value : Nat)
  deriving DecidableEq

/-- One call on a controller: the controller after the call and what the call
hands back; `none` when the call does not return. The entry points that only
load from `controller` (the reads, `CopyFromDRAM`, `GetRDRAMMemoryPointer`)
contain no store to any of its fields, so the controller after them is the one
before. -/
def perform (h : HostOrder) (hs : HostSpace) (c : RDRAMController) :
    Call → Option (RDRAMController × Output)
  | .ConnectRDRAMToBus bus => some (ConnectRDRAMToBus c bus, .void)
  | .CopyFromDRAM source size => some (c, .buffer (CopyFromDRAM c source size))
  | .CopyToDRAM dest source size => some (CopyToDRAM c dest source size, .void)
  | .GetRDRAMMemoryPointer => some (c, .buffer (GetRDRAMMemoryPointer c))
  | .RDRAMReadByte address =>
    some (c, .data (RDRAMReadByte c address).1 (RDRAMReadByte c address).2)
  | .RDRAMReadDWord address =>
    some (c, .data (RDRAMReadDWord h c address).1 (RDRAMReadDWord h c address).2)
  | .RDRAMReadHWord address =>
    some (c, .data (RDRAMReadHWord h c address).1 (RDRAMReadHWord h c address).2)
  | .RDRAMReadWord address =>
    some (c, .data (RDRAMReadWord h c address).1 (RDRAMReadWord h c address).2)
  | .RDRAMRegRead address =>
    some (c, .data (RDRAMRegRead c address).1 (RDRAMRegRead c address).2)
  | .RDRAMRegWrite address data =>
    some ((RDRAMRegWrite c address data).2, .status (RDRAMRegWrite c address data).1)
  | .RDRAMWriteByte address data =>
    some ((RDRAMWriteByte c address data).2, .status (RDRAMWriteByte c address data).1)
  | .RDRAMWriteDWord address data =>
    some ((RDRAMWriteDWord h c address data).2, .status (RDRAMWriteDWord h c address data).1)
  | .RDRAMWriteHWord address data =>
    some ((RDRAMWriteHWord h c address data).2, .status (RDRAMWriteHWord h c address data).1)
  | .RDRAMWriteWord address data =>
    some ((RDRAMWriteWord h c address data).2, .status (RDRAMWriteWord h c address data).1)
  | .RDRAMWriteWordUnaligned address data =>
    (RDRAMWriteWordUnaligned hs c address data).map (fun r => (r.2, .status r.1))
  | .RIRegRead address =>
    some (c, .data (RIRegRead c address).1 (RIRegRead c address).2)
  | .RIRegWrite address data =>
    some ((RIRegWrite c address data).2, .status (RIRegWrite c address data).1)

/-- The read-type entry points: the four sized RAM reads, the two register
reads, `CopyFromDRAM` and `GetRDRAMMemoryPointer`. -/
def Call.isRead : Call → Bool
  | .CopyFromDRAM _ _ => true
  | .GetRDRAMMemoryPointer => true
  | .RDRAMReadByte _ => true
  | .RDRAMReadDWord _ => true
  | .RDRAMReadHWord _ => true
  | .RDRAMReadWord _ => true
  | .RDRAMRegRead _ => true
  | .RIRegRead _ => true
  | _ => false

/-- The bus-facing access entry points, those of signature
`int f(void *, uint32_t, void *)`. -/
def Call.isBusAccess : Call → Bool
  | .ConnectRDRAMToBus _ => false
  | .CopyFromDRAM _ _ => false
  | .CopyToDRAM _ _ _ => false
  | .GetRDRAMMemoryPointer => false
  | _ => true

/-- The status a call handed back, when it handed one back. -/
def Output.code : Output → Option Int
  | .status code => some code
  | .data code _ => some code
  | _ => none

/-- The contract of the bus for a call: a RAM access lies with all its bytes
in the RAM range, a bulk copy inside the buffer (and `CopyToDRAM` is given at
least `size` bytes), a register access in the range of its bank. -/
def Call.inRange : Call → Prop
  | .ConnectRDRAMToBus _ => True
  | .CopyFromDRAM source size => source + size ≤ RDRAM_ADDRESS_LEN
  | .CopyToDRAM dest source size => dest + size ≤ RDRAM_ADDRESS_LEN ∧ size ≤ source.length
  | .GetRDRAMMemoryPointer => True
  | .RDRAMReadByte address =>
    RDRAM_BASE_ADDRESS ≤ address ∧ address + 1 ≤ RDRAM_BASE_ADDRESS + RDRAM_ADDRESS_LEN
  | .RDRAMReadDWord address =>
    RDRAM_BASE_ADDRESS ≤ address ∧ address + 8 ≤ RDRAM_BASE_ADDRESS + RDRAM_ADDRESS_LEN
  | .RDRAMReadHWord address =>
    RDRAM_BASE_ADDRESS ≤ address ∧ address + 2 ≤ RDRAM_BASE_ADDRESS + RDRAM_ADDRESS_LEN
  | .RDRAMReadWord address =>
    RDRAM_BASE_ADDRESS ≤ address ∧ address + 4 ≤ RDRAM_BASE_ADDRESS + RDRAM_ADDRESS_LEN
  | .RDRAMRegRead address =>
    RDRAM_REGS_BASE_ADDRESS ≤ address ∧
      address < RDRAM_REGS_BASE_ADDRESS + RDRAM_REGS_ADDRESS_LEN
  | .RDRAMRegWrite address _ =>
    RDRAM_REGS_BASE_ADDRESS ≤ address ∧
      address < RDRAM_REGS_BASE_ADDRESS + RDRAM_REGS_ADDRESS_LEN
  | .RDRAMWriteByte address _ =>
    RDRAM_BASE_ADDRESS ≤ address ∧ address + 1 ≤ RDRAM_BASE_ADDRESS + RDRAM_ADDRESS_LEN
  | .RDRAMWriteDWord address _ =>
    RDRAM_BASE_ADDRESS ≤ address ∧ address + 8 ≤ RDRAM_BASE_ADDRESS + RDRAM_ADDRESS_LEN
  | .RDRAMWriteHWord address _ =>
    RDRAM_BASE_ADDRESS ≤ address ∧ address + 2 ≤ RDRAM_BASE_ADDRESS + RDRAM_ADDRESS_LEN
  | .RDRAMWriteWord address _ =>
    RDRAM_BASE_ADDRESS ≤ address ∧ address + 4 ≤ RDRAM_BASE_ADDRESS + RDRAM_ADDRESS_LEN
  | .RDRAMWriteWordUnaligned address data =>
    RDRAM_BASE_ADDRESS ≤ address ∧
      address + data.size ≤ RDRAM_BASE_ADDRESS + RDRAM_ADDRESS_LEN
  | .RIRegRead address =>
    RI_REGS_BASE_ADDRESS ≤ address ∧ address < RI_REGS_BASE_ADDRESS + RI_REGS_ADDRESS_LEN
  | .RIRegWrite address _ =>
    RI_REGS_BASE_ADDRESS ≤ address ∧ address < RI_REGS_BASE_ADDRESS + RI_REGS_ADDRESS_LEN

/-- Byte-granular copy into RAM: `RDRAMWriteByte` of `B[i]` at `a + i` for
`i = 0, 1, ..`, one call after the other. -/
def writeBytewise (c : RDRAMController) (a : Nat) : List Byte → RDRAMController
  | [] => c
  | b :: bs => writeBytewise (RDRAMWriteByte c a b.val).2 (a + 1) bs

/-! ## Lemmas on `memcpy` -/

theorem length_memcpyTo (mem : List Byte) (off : Nat) (src : List Byte) :
    (memcpyTo mem off src).length = mem.length := by
  induction src generalizing mem off with
  | nil => rfl
  | cons b bs ih => simp [memcpyTo, ih]

theorem getElem?_memcpyTo (mem : List Byte) (off : Nat) (src : List Byte) (j : Nat) :
    (memcpyTo mem off src)[j]? =
      if off ≤ j ∧ j < off + src.length ∧ j < mem.length then src[j - off]? else mem[j]? := by
  induction src generalizing mem off with
  | nil =>
    have hfalse : ¬ (off ≤ j ∧ j < off + 0 ∧ j < mem.length) := by omega
    rw [memcpyTo, List.length_nil, if_neg hfalse]
  | cons b bs ih =>
    rw [memcpyTo, ih, List.length_set, List.getElem?_set, List.length_cons]
    by_cases h1 : off = j
    · subst h1
      by_cases h2 : off < mem.length
      · have hc : ¬ (off + 1 ≤ off ∧ off < off + 1 + bs.length ∧ off < mem.length) := by omega
        have hd : off ≤ off ∧ off < off + (bs.length + 1) ∧ off < mem.length := by omega
        rw [if_neg hc, if_pos hd, if_pos rfl, if_pos h2]
        simp
      · have hc : ¬ (off + 1 ≤ off ∧ off < off + 1 + bs.length ∧ off < mem.length) := by omega
        have hd : ¬ (off ≤ off ∧ off < off + (bs.length + 1) ∧ off < mem.length) := by omega
        rw [if_neg hc, if_neg hd, if_pos rfl, if_neg h2]
        exact (List.getElem?_eq_none (by omega)).symm
    · rw [if_neg h1]
      by_cases h2 : off + 1 ≤ j ∧ j < off + 1 + bs.length ∧ j < mem.length
      · have hd : off ≤ j ∧ j < off + (bs.length + 1) ∧ j < mem.length := by omega
        rw [if_pos h2, if_pos hd]
        have hj : j - off = (j - (off + 1)) + 1 := by omega
        rw [hj, List.getElem?_cons_succ]
      · have hd : ¬ (off ≤ j ∧ j < off + (bs.length + 1) ∧ j < mem.length) := by omega
        rw [if_neg h2, if_neg hd]

theorem getElem?_memcpyFrom (mem : List Byte) (off n i : Nat) :
    (memcpyFrom mem off n)[i]? = if i < n then mem[off + i]? else none := by
  simp [memcpyFrom, List.getElem?_take, List.getElem?_drop]

theorem length_memcpyFrom (mem : List Byte) (off n : Nat) (h : off + n ≤ mem.length) :
    (memcpyFrom mem off n).length = n := by
  simp [memcpyFrom]
  omega

theorem memcpyFrom_memcpyTo (mem : List Byte) (off : Nat) (src : List Byte)
    (h : off + src.length ≤ mem.length) :
    memcpyFrom (memcpyTo mem off src) off src.length = src := by
  apply List.ext_getElem?
  intro i
  rw [getElem?_memcpyFrom, getElem?_memcpyTo]
  by_cases hi : i < src.length
  · have hd : off ≤ off + i ∧ off + i < off + src.length ∧ off + i < mem.length := by omega
    rw [if_pos hi, if_pos hd]
    congr 1
    omega
  · rw [if_neg hi]
    exact (List.getElem?_eq_none (by omega)).symm

/-! ## Lemmas on byte encodings -/

theorem length_leBytes (w x : Nat) : (leBytes w x).length = w := by
  induction w generalizing x with
  | zero => rfl
  | succ w ih => simp [leBytes, ih]

theorem leValue_append_singleton (l : List Byte) (b : Byte) :
    leValue (l ++ [b]) = leValue l + 256 ^ l.length * b.val := by
  induction l with
  | nil => simp [leValue]
  | cons a t ih =>
    show a.val + 256 * leValue (t ++ [b]) =
      (a.val + 256 * leValue t) + 256 ^ (t.length + 1) * b.val
    rw [ih]
    ring

theorem leValue_lt (bs : List Byte) : leValue bs < 256 ^ bs.length := by
  induction bs with
  | nil => simp [leValue]
  | cons b t ih =>
    have hb := b.isLt
    simp only [leValue, List.length_cons, pow_succ]
    omega

theorem leValue_leBytes (w x : Nat) : leValue (leBytes w x) = x % 256 ^ w := by
  induction w generalizing x with
  | zero => simp [leBytes, leValue, Nat.mod_one]
  | succ w ih =>
    simp only [leBytes, leValue, ih, toByte]
    rw [pow_succ, Nat.mul_comm (256 ^ w) 256, Nat.mod_mul]

theorem leBytes_leValue (bs : List Byte) : leBytes bs.length (leValue bs) = bs := by
  induction bs with
  | nil => rfl
  | cons b t ih =>
    have hb := b.isLt
    have h1 : (b.val + 256 * leValue t) % 256 = b.val := by omega
    have h2 : (b.val + 256 * leValue t) / 256 = leValue t := by omega
    simp only [List.length_cons, leBytes, leValue, h2, ih]
    congr 1
    exact Fin.ext h1

theorem byteReverse_eq (w x : Nat) : byteReverse w x = leValue (leBytes w x).reverse := by
  induction w generalizing x with
  | zero => rfl
  | succ w ih =>
    simp only [byteReverse, leBytes, List.reverse_cons, leValue_append_singleton,
      List.length_reverse, length_leBytes, ih, toByte]
    ring

theorem getElem?_leBytes (w x i : Nat) :
    (leBytes w x)[i]? = if i < w then some (toByte (x / 256 ^ i)) else none := by
  induction w generalizing x i with
  | zero => simp [leBytes]
  | succ w ih =>
    cases i with
    | zero => simp [leBytes]
    | succ i =>
      simp only [leBytes, List.getElem?_cons_succ, ih, Nat.add_lt_add_iff_right]
      rw [Nat.div_div_eq_div_mul, pow_succ, Nat.mul_comm (256 ^ i) 256]

/-- On either host the bytes a sized write hands to `memcpy` are the bytes of
the value, most significant first. -/
theorem objectBytes_ByteOrderSwap (h : HostOrder) (w v : Nat) :
    objectBytes h w (ByteOrderSwap h w v) = (leBytes w v).reverse := by
  cases h with
  | littleEndian =>
    have hlen : (leBytes w v).reverse.length = w := by simp [length_leBytes]
    have := leBytes_leValue (leBytes w v).reverse
    rw [hlen] at this
    simp only [objectBytes, ByteOrderSwap, byteReverse_eq, this]
  | bigEndian => rfl

/-- On either host a sized read of `w` bytes delivers the number whose bytes,
most significant first, are the bytes read. -/
theorem ByteOrderSwap_objectValue (h : HostOrder) (w : Nat) (bs : List Byte)
    (hlen : bs.length = w) :
    ByteOrderSwap h w (objectValue h bs) = leValue bs.reverse := by
  cases h with
  | littleEndian =>
    subst hlen
    simp only [objectValue, ByteOrderSwap, byteReverse_eq, leBytes_leValue]
  | bigEndian => rfl

theorem byteReverse_samples :
    byteReverse 2 0x1234 = 0x3412 ∧ byteReverse 4 0x11223344 = 0x44332211 ∧
      byteReverse 8 0x0102030405060708 = 0x0807060504030201 := by
  decide

theorem leValue_reverse_eq_sum (bs : List Byte) :
    leValue bs.reverse =
      ∑ i ∈ Finset.range bs.length, (bs.getD i 0).val * 256 ^ (bs.length - 1 - i) := by
  induction bs with
  | nil => rfl
  | cons b t ih =>
    rw [List.reverse_cons, leValue_append_singleton, List.length_reverse, ih,
      List.length_cons, Finset.sum_range_succ']
    simp only [List.getD_cons_succ, List.getD_cons_zero, Nat.add_sub_cancel, Nat.sub_zero]
    rw [Nat.mul_comm (256 ^ t.length)]
    congr 1
    apply Finset.sum_congr rfl
    intro i hi
    have : t.length - 1 - i = t.length - (i + 1) := by omega
    rw [this]

/-! ## The sized RAM entry points in terms of the buffer -/

theorem sub32_RDRAM_BASE (a : Nat) (ha : a < 2 ^ 32) : sub32 a RDRAM_BASE_ADDRESS = a := by
  simp only [sub32, RDRAM_BASE_ADDRESS]
  omega

theorem pow_two_eight_mul (k : Nat) : 2 ^ (8 * k) = 256 ^ k := by
  rw [pow_mul]
  norm_num

theorem ramWrite_eq (h : HostOrder) (w : Width) (c : RDRAMController) (a v : Nat) :
    ramWrite h w c a v =
      (0, { c with
            memory := memcpyTo c.memory (sub32 a RDRAM_BASE_ADDRESS)
              (leBytes w.size (v % 2 ^ (8 * w.size))).reverse }) := by
  cases w with
  | byte => simp [ramWrite, RDRAMWriteByte, Width.size, leBytes]
  | hword => simp only [ramWrite, RDRAMWriteHWord, objectBytes_ByteOrderSwap, Width.size]
  | word => simp only [ramWrite, RDRAMWriteWord, objectBytes_ByteOrderSwap, Width.size]
  | dword => simp only [ramWrite, RDRAMWriteDWord, objectBytes_ByteOrderSwap, Width.size]

theorem ramRead_eq (h : HostOrder) (w : Width) (c : RDRAMController) (a : Nat)
    (hb : sub32 a RDRAM_BASE_ADDRESS + w.size ≤ c.memory.length) :
    ramRead h w c a =
      (0, leValue (memcpyFrom c.memory (sub32 a RDRAM_BASE_ADDRESS) w.size).reverse) := by
  have hlen := length_memcpyFrom c.memory (sub32 a RDRAM_BASE_ADDRESS) w.size hb
  cases w with
  | byte =>
    have h1 : ∀ bs : List Byte, bs.length = 1 → bs.reverse = bs := by
      intro bs hbs
      match bs, hbs with
      | [_], _ => rfl
    simp only [ramRead, RDRAMReadByte, Width.size] at hlen ⊢
    rw [h1 _ hlen]
  | hword => exact congrArg (Prod.mk (0 : Int)) (ByteOrderSwap_objectValue h 2 _ hlen)
  | word => exact congrArg (Prod.mk (0 : Int)) (ByteOrderSwap_objectValue h 4 _ hlen)
  | dword => exact congrArg (Prod.mk (0 : Int)) (ByteOrderSwap_objectValue h 8 _ hlen)

theorem Width.size_le (w : Width) : w.size ≤ 8 := by
  cases w <;> simp [Width.size]

theorem Width.size_pos (w : Width) : 0 < w.size := by
  cases w <;> simp [Width.size]

theorem ramRead_eq_sum (h : HostOrder) (w : Width) (c : RDRAMController) (a : Nat)
    (ha : a + w.size ≤ c.memory.length) (hfit : c.memory.length < 2 ^ 32) :
    ramRead h w c a =
      (0, ∑ i ∈ Finset.range w.size,
            ((GetRDRAMMemoryPointer c).getD (a + i) 0).val * 256 ^ (w.size - 1 - i)) := by
  have ha32 : a < 2 ^ 32 := by omega
  have hb : sub32 a RDRAM_BASE_ADDRESS + w.size ≤ c.memory.length := by
    rw [sub32_RDRAM_BASE a ha32]
    exact ha
  rw [ramRead_eq h w c a hb, leValue_reverse_eq_sum, length_memcpyFrom _ _ _ hb,
    sub32_RDRAM_BASE a ha32, GetRDRAMMemoryPointer]
  congr 1
  apply Finset.sum_congr rfl
  intro i hi
  have hi2 : i < w.size := Finset.mem_range.mp hi
  rw [List.getD_eq_getElem?_getD, List.getD_eq_getElem?_getD, getElem?_memcpyFrom,
    if_pos hi2]

/-! ## Claims -/

/-- C1: for every controller state whose RAM buffer has `RDRAM_ADDRESS_LEN`
bytes, every width, every address `a` whose bytes `[a, a+w)` lie inside the
buffer and every value `v` of that width, the sized write of `v` at `a`
followed by the sized read of the same width at `a` returns `v` (with
status 0), on a little-endian and on a big-endian host. -/
theorem ram_write_then_read (h : HostOrder) (w : Width) (c : RDRAMController) (a v : Nat)
    (hlen : c.memory.length = RDRAM_ADDRESS_LEN)
    (ha : a + w.size ≤ RDRAM_ADDRESS_LEN)
    (hv : v < 2 ^ (8 * w.size)) :
    ramRead h w (ramWrite h w c a v).2 a = (0, v) := by
  have ha32 : a < 2 ^ 32 := by
    have := w.size_pos
    simp only [RDRAM_ADDRESS_LEN] at ha
    omega
  have hsrc : (leBytes w.size (v % 2 ^ (8 * w.size))).reverse.length = w.size := by
    simp [length_leBytes]
  rw [ramWrite_eq, ramRead_eq]
  · simp only [sub32_RDRAM_BASE a ha32]
    have key := memcpyFrom_memcpyTo c.memory a
      (leBytes w.size (v % 2 ^ (8 * w.size))).reverse (by rw [hsrc, hlen]; exact ha)
    rw [hsrc] at key
    rw [key, List.reverse_reverse, leValue_leBytes, Nat.mod_eq_of_lt hv,
      Nat.mod_eq_of_lt (by rw [← pow_two_eight_mul]; exact hv)]
  · simp only [sub32_RDRAM_BASE a ha32, length_memcpyTo, hlen]
    exact ha

theorem InitRDRAM_memory (E : RegisterEnums) :
    (InitRDRAM E).memory = List.replicate RDRAM_ADDRESS_LEN (0 : Byte) := rfl

theorem InitRDRAM_memory_length (E : RegisterEnums) :
    (InitRDRAM E).memory.length = RDRAM_ADDRESS_LEN := by
  rw [InitRDRAM_memory, List.length_replicate]

/-- C1 at a concrete input: a word written at 0x100 of a fresh controller on a
little-endian host is read back. -/
theorem ram_write_then_read_witness :
    (InitRDRAM sampleEnums).memory.length = RDRAM_ADDRESS_LEN ∧
    0x100 + Width.word.size ≤ RDRAM_ADDRESS_LEN ∧
    0xDEADBEEF < 2 ^ (8 * Width.word.size) ∧
    ramRead .littleEndian .word
      (ramWrite .littleEndian .word (InitRDRAM sampleEnums) 0x100 0xDEADBEEF).2 0x100
      = (0, 0xDEADBEEF) :=
  ⟨InitRDRAM_memory_length sampleEnums, by decide, by decide,
    ram_write_then_read .littleEndian .word (InitRDRAM sampleEnums) 0x100 0xDEADBEEF
      (InitRDRAM_memory_length sampleEnums) (by decide) (by decide)⟩

/-- C2: after the sized write of `v` at an in-bounds address `a`, the buffer
itself (as `GetRDRAMMemoryPointer` exposes it) holds at offset `a + i`, for
every `i < w`, the byte `(v >> 8*(w-1-i)) & 0xFF`: the big-endian encoding of
`v`, most significant byte at `a`. This holds on either host and for each of
the widths (2, 4 and 8 among them). -/
theorem ram_write_stores_big_endian (h : HostOrder) (w : Width) (c : RDRAMController)
    (a v i : Nat)
    (hlen : c.memory.length = RDRAM_ADDRESS_LEN)
    (ha : a + w.size ≤ RDRAM_ADDRESS_LEN)
    (hv : v < 2 ^ (8 * w.size))
    (hi : i < w.size) :
    ((GetRDRAMMemoryPointer (ramWrite h w c a v).2)[a + i]?).map Fin.val =
      some ((v >>> (8 * (w.size - 1 - i))) &&& 0xFF) := by
  have ha32 : a < 2 ^ 32 := by
    simp only [RDRAM_ADDRESS_LEN] at ha
    omega
  have hcond : a ≤ a + i ∧
      a + i < a + (leBytes w.size v).reverse.length ∧ a + i < c.memory.length := by
    simp only [List.length_reverse, length_leBytes, hlen]
    omega
  have hrev : i < (leBytes w.size v).length := by rw [length_leBytes]; exact hi
  have hk : w.size - 1 - i < w.size := by omega
  rw [ramWrite_eq, GetRDRAMMemoryPointer, Nat.mod_eq_of_lt hv, sub32_RDRAM_BASE a ha32,
    getElem?_memcpyTo, if_pos hcond, Nat.add_sub_cancel_left, List.getElem?_reverse hrev,
    length_leBytes, getElem?_leBytes, if_pos hk, Option.map_some']
  congr 1
  have hff : (0xFF : Nat) = 2 ^ 8 - 1 := by norm_num
  rw [hff, Nat.and_pow_two_sub_one_eq_mod, Nat.shiftRight_eq_div_pow, pow_two_eight_mul]
  rfl

/-- C2 at a concrete input: the second byte of the word 0x11223344 written at
0x100 is 0x22. -/
theorem ram_write_stores_big_endian_witness :
    ((GetRDRAMMemoryPointer
        (ramWrite .littleEndian .word (InitRDRAM sampleEnums) 0x100 0x11223344).2)[0x100 + 1]?).map
      Fin.val = some 0x22 :=
  ram_write_stores_big_endian .littleEndian .word (InitRDRAM sampleEnums) 0x100 0x11223344 1
    (InitRDRAM_memory_length sampleEnums) (by decide) (by decide) (by decide)

/-- C3: for every buffer content and every in-bounds address `a`, the sized
read at `a` returns the big-endian decoding of the raw bytes at `[a, a+w)`,
the sum of `byte[a+i] * 256^(w-1-i)` (in particular for the widths 2, 4 and
8), and `RDRAMReadByte` returns the raw byte at `a`. -/
theorem ram_read_decodes_big_endian (h : HostOrder) (w : Width) (c : RDRAMController)
    (a : Nat)
    (hlen : c.memory.length = RDRAM_ADDRESS_LEN)
    (ha : a + w.size ≤ RDRAM_ADDRESS_LEN) :
    ramRead h w c a =
        (0, ∑ i ∈ Finset.range w.size,
              ((GetRDRAMMemoryPointer c).getD (a + i) 0).val * 256 ^ (w.size - 1 - i)) ∧
      RDRAMReadByte c a = (0, ((GetRDRAMMemoryPointer c).getD a 0).val) := by
  have h1 : a + Width.byte.size ≤ c.memory.length := by
    have := w.size_pos
    simp only [Width.size, hlen]
    omega
  refine ⟨ramRead_eq_sum h w c a (by rw [hlen]; exact ha) (by rw [hlen]; decide), ?_⟩
  have hbyte := ramRead_eq_sum h .byte c a h1 (by rw [hlen]; decide)
  simpa [ramRead, Width.size] using hbyte

/-- C3 at a concrete input: a half-word read at 0x102 of a buffer that holds
the word 0x11223344 at 0x100. -/
theorem ram_read_decodes_big_endian_witness :
    ramRead .littleEndian .hword
        (ramWrite .bigEndian .word (InitRDRAM sampleEnums) 0x100 0x11223344).2 0x102 =
      (0, ∑ i ∈ Finset.range Width.hword.size,
            ((GetRDRAMMemoryPointer
                (ramWrite .bigEndian .word (InitRDRAM sampleEnums) 0x100 0x11223344).2).getD
              (0x102 + i) 0).val * 256 ^ (Width.hword.size - 1 - i)) :=
  (ram_read_decodes_big_endian .littleEndian .hword
    (ramWrite .bigEndian .word (InitRDRAM sampleEnums) 0x100 0x11223344).2 0x102
    (by rw [ramWrite_eq]; exact (length_memcpyTo _ _ _).trans (InitRDRAM_memory_length _))
    (by decide)).1

theorem sub32_add_base (base k : Nat) (h : base + k < 2 ^ 32) : sub32 (base + k) base = k := by
  simp only [sub32]
  omega

/-- C4: for every controller state, every interface-register slot `i` below
`NUM_RI_REGISTERS` and every 32-bit value `v`, after `RIRegWrite` at
`0x04700000 + 4*i` the read `RIRegRead` at the same address returns exactly
`v`, every other interface-register slot keeps its value, and the
device-register bank is unchanged. -/
theorem ri_reg_write_then_read (E : RegisterEnums) (c : RDRAMController) (i v : Nat)
    (hregs : c.regs.length = E.NUM_RI_REGISTERS)
    (hi : i < E.NUM_RI_REGISTERS)
    (haddr : 0x04700000 + 4 * i < 2 ^ 32)
    (hv : v < 2 ^ 32) :
    RIRegRead (RIRegWrite c (0x04700000 + 4 * i) v).2 (0x04700000 + 4 * i) = (0, v) ∧
      (∀ j, j ≠ i → (RIRegWrite c (0x04700000 + 4 * i) v).2.regs[j]? = c.regs[j]?) ∧
      (RIRegWrite c (0x04700000 + 4 * i) v).2.rdramregs = c.rdramregs := by
  have hslot : sub32 (0x04700000 + 4 * i) RI_REGS_BASE_ADDRESS / 4 = i := by
    rw [RI_REGS_BASE_ADDRESS, sub32_add_base _ _ haddr]
    omega
  have hi2 : i < c.regs.length := by rw [hregs]; exact hi
  refine ⟨?_, ?_, rfl⟩
  · simp only [RIRegRead, RIRegWrite, hslot, List.getD_eq_getElem?_getD, List.getElem?_set,
      if_pos hi2, if_true, Option.getD_some, Nat.mod_eq_of_lt hv]
  · intro j hj
    simp only [RIRegWrite, hslot, List.getElem?_set, if_neg (Ne.symm hj)]

/-- C4 at a concrete input: slot 2 of a fresh controller. -/
theorem ri_reg_write_then_read_witness :
    RIRegRead (RIRegWrite (InitRDRAM sampleEnums) (0x04700000 + 4 * 2) 0xCAFEF00D).2
        (0x04700000 + 4 * 2) = (0, 0xCAFEF00D) :=
  (ri_reg_write_then_read sampleEnums (InitRDRAM sampleEnums) 2 0xCAFEF00D
    (by simp [InitRDRAM]) (by decide) (by decide) (by decide)).1

/-- C5: for every controller state, every device-register slot `i` below
`NUM_RDRAM_REGISTERS` and every 32-bit value `v`, `RDRAMRegWrite` at
`0x03F00000 + 4*i` puts `v` itself into `rdramregs[i]`, changes no other
device-register slot and nothing of the interface bank, the following
`RDRAMRegRead` at the same address returns exactly `v`, and the slot written
is `(address - 0x03F00000) / 4`. -/
theorem rdram_reg_write_then_read (E : RegisterEnums) (c : RDRAMController) (i v : Nat)
    (hregs : c.rdramregs.length = E.NUM_RDRAM_REGISTERS)
    (hi : i < E.NUM_RDRAM_REGISTERS)
    (haddr : 0x03F00000 + 4 * i < 2 ^ 32)
    (hv : v < 2 ^ 32) :
    (RDRAMRegWrite c (0x03F00000 + 4 * i) v).2.rdramregs[i]? = some v ∧
      (∀ j, j ≠ i → (RDRAMRegWrite c (0x03F00000 + 4 * i) v).2.rdramregs[j]? = c.rdramregs[j]?) ∧
      (RDRAMRegWrite c (0x03F00000 + 4 * i) v).2.regs = c.regs ∧
      RDRAMRegRead (RDRAMRegWrite c (0x03F00000 + 4 * i) v).2 (0x03F00000 + 4 * i) = (0, v) ∧
      (RDRAMRegWrite c (0x03F00000 + 4 * i) v).2.rdramregs =
        c.rdramregs.set ((0x03F00000 + 4 * i - 0x03F00000) / 4) v := by
  have hslot : sub32 (0x03F00000 + 4 * i) RDRAM_REGS_BASE_ADDRESS / 4 = i := by
    rw [RDRAM_REGS_BASE_ADDRESS, sub32_add_base _ _ haddr]
    omega
  have hslot2 : (0x03F00000 + 4 * i - 0x03F00000) / 4 = i := by omega
  have hi2 : i < c.rdramregs.length := by rw [hregs]; exact hi
  refine ⟨?_, ?_, rfl, ?_, ?_⟩
  · simp only [RDRAMRegWrite, hslot, List.getElem?_set, if_pos hi2, if_true,
      Nat.mod_eq_of_lt hv]
  · intro j hj
    simp only [RDRAMRegWrite, hslot, List.getElem?_set, if_neg (Ne.symm hj)]
  · simp only [RDRAMRegRead, RDRAMRegWrite, hslot, List.getD_eq_getElem?_getD,
      List.getElem?_set, if_pos hi2, if_true, Option.getD_some, Nat.mod_eq_of_lt hv]
  · simp only [RDRAMRegWrite, hslot, hslot2, Nat.mod_eq_of_lt hv]

/-- C5 at a concrete input: slot 9 of a fresh controller. -/
theorem rdram_reg_write_then_read_witness :
    RDRAMRegRead (RDRAMRegWrite (InitRDRAM sampleEnums) (0x03F00000 + 4 * 9) 0x12345678).2
        (0x03F00000 + 4 * 9) = (0, 0x12345678) :=
  (rdram_reg_write_then_read sampleEnums (InitRDRAM sampleEnums) 9 0x12345678
    (by simp [InitRDRAM]) (by decide) (by decide) (by decide)).2.2.2.1

theorem InitRDRAM_regs (E : RegisterEnums) :
    (InitRDRAM E).regs =
      ((((List.replicate E.NUM_RI_REGISTERS 0).set E.RI_MODE_REG 0xE).set
        E.RI_CONFIG_REG 0x40).set E.RI_SELECT_REG 0x14).set E.RI_REFRESH_REG 0x63634 := rfl

theorem InitRDRAM_rdramregs (E : RegisterEnums) :
    (InitRDRAM E).rdramregs = List.replicate E.NUM_RDRAM_REGISTERS 0 := rfl

/-- C6: construction succeeds whenever the allocation does and yields the
state of `InitRDRAM`, in which the slots `RI_MODE_REG`, `RI_CONFIG_REG`,
`RI_SELECT_REG` and `RI_REFRESH_REG` hold 0xE, 0x40, 0x14 and 0x63634, every
other of the `NUM_RI_REGISTERS` interface slots holds zero, and every one of
the `NUM_RDRAM_REGISTERS` device slots holds zero. -/
theorem init_register_defaults (E : RegisterEnums) :
    CreateRDRAM E true = some (InitRDRAM E) ∧
      (InitRDRAM E).regs.length = E.NUM_RI_REGISTERS ∧
      (InitRDRAM E).rdramregs.length = E.NUM_RDRAM_REGISTERS ∧
      (InitRDRAM E).regs[E.RI_MODE_REG]? = some 0xE ∧
      (InitRDRAM E).regs[E.RI_CONFIG_REG]? = some 0x40 ∧
      (InitRDRAM E).regs[E.RI_SELECT_REG]? = some 0x14 ∧
      (InitRDRAM E).regs[E.RI_REFRESH_REG]? = some 0x63634 ∧
      (∀ j, j < E.NUM_RI_REGISTERS → j ≠ E.RI_MODE_REG → j ≠ E.RI_CONFIG_REG →
        j ≠ E.RI_SELECT_REG → j ≠ E.RI_REFRESH_REG → (InitRDRAM E).regs[j]? = some 0) ∧
      (∀ j, j < E.NUM_RDRAM_REGISTERS → (InitRDRAM E).rdramregs[j]? = some 0) := by
  have hm := E.mode_lt
  have hc := E.config_lt
  have hs := E.select_lt
  have hr := E.refresh_lt
  have h1 := E.mode_ne_config
  have h2 := E.mode_ne_select
  have h3 := E.mode_ne_refresh
  have h4 := E.config_ne_select
  have h5 := E.config_ne_refresh
  have h6 := E.select_ne_refresh
  refine ⟨rfl, ?_, ?_, ?_, ?_, ?_, ?_, ?_, ?_⟩
  · simp [InitRDRAM_regs]
  · simp [InitRDRAM_rdramregs]
  · simp [InitRDRAM_regs, List.getElem?_set, List.getElem?_replicate, hm, Ne.symm h1,
      Ne.symm h2, Ne.symm h3]
  · simp [InitRDRAM_regs, List.getElem?_set, List.getElem?_replicate, hc, Ne.symm h4,
      Ne.symm h5]
  · simp [InitRDRAM_regs, List.getElem?_set, List.getElem?_replicate, hs, Ne.symm h6]
  · simp [InitRDRAM_regs, List.getElem?_set, List.getElem?_replicate, hr]
  · intro j hj j1 j2 j3 j4
    simp [InitRDRAM_regs, List.getElem?_set, List.getElem?_replicate, hj, Ne.symm j1,
      Ne.symm j2, Ne.symm j3, Ne.symm j4]
  · intro j hj
    simp [InitRDRAM_rdramregs, List.getElem?_replicate, hj]

/-- C6 at a concrete enumeration: slot 2 of the eight interface registers is
none of the four assigned ones and holds zero. -/
theorem init_register_defaults_witness : (InitRDRAM sampleEnums).regs[2]? = some 0 :=
  (init_register_defaults sampleEnums).2.2.2.2.2.2.2.1 2 (by decide) (by decide) (by decide)
    (by decide) (by decide)

/-- C7: right after construction the buffer that `GetRDRAMMemoryPointer`
exposes has 0x800000 bytes, each of them zero, and every in-bounds read of
any of the four widths returns 0 (with status 0), on either host. -/
theorem init_memory_zero (E : RegisterEnums) :
    CreateRDRAM E true = some (InitRDRAM E) ∧
      (GetRDRAMMemoryPointer (InitRDRAM E)).length = 0x800000 ∧
      (∀ j, j < 0x800000 → (GetRDRAMMemoryPointer (InitRDRAM E))[j]? = some 0) ∧
      (∀ (h : HostOrder) (w : Width) (a : Nat), a + w.size ≤ 0x800000 →
        ramRead h w (InitRDRAM E) a = (0, 0)) := by
  refine ⟨rfl, ?_, ?_, ?_⟩
  · rw [GetRDRAMMemoryPointer, InitRDRAM_memory_length, RDRAM_ADDRESS_LEN]
  · intro j hj
    rw [GetRDRAMMemoryPointer, InitRDRAM_memory, List.getElem?_replicate, RDRAM_ADDRESS_LEN,
      if_pos hj]
  · intro h w a ha
    have hlen := InitRDRAM_memory_length E
    rw [RDRAM_ADDRESS_LEN] at hlen
    rw [ramRead_eq_sum h w (InitRDRAM E) a (by rw [hlen]; exact ha) (by rw [hlen]; decide)]
    congr 1
    apply Finset.sum_eq_zero
    intro i hi
    have hi2 : i < w.size := Finset.mem_range.mp hi
    have hin : a + i < RDRAM_ADDRESS_LEN := by rw [RDRAM_ADDRESS_LEN]; omega
    rw [GetRDRAMMemoryPointer, InitRDRAM_memory, List.getD_eq_getElem?_getD,
      List.getElem?_replicate, if_pos hin]
    simp

/-- C7 at a concrete input: the double word at the last eight bytes of a fresh
buffer reads as zero. -/
theorem init_memory_zero_witness :
    ramRead .littleEndian .dword (InitRDRAM sampleEnums) 0x7FFFF8 = (0, 0) :=
  (init_memory_zero sampleEnums).2.2.2 .littleEndian .dword 0x7FFFF8 (by decide)

/-! ## The unaligned write and the bulk copies -/

theorem hostLoad_length (hs : HostSpace) (p n : Nat) (bs : List Byte)
    (h : hostLoad hs p n = some bs) : bs.length = n := by
  induction n generalizing p bs with
  | zero =>
    simp only [hostLoad, Option.some.injEq] at h
    rw [← h]
    rfl
  | succ n ih =>
    rw [hostLoad] at h
    cases hb : hs p with
    | none => simp [hb] at h
    | some b =>
      cases ht : hostLoad hs (p + 1) n with
      | none => simp [hb, ht] at h
      | some t =>
        simp only [hb, ht, Option.some.injEq] at h
        rw [← h, List.length_cons, ih (p + 1) t ht]

theorem hostLoad_isSome (hs : HostSpace) (p n : Nat)
    (h : ∀ i, i < n → (hs (p + i)).isSome = true) : (hostLoad hs p n).isSome = true := by
  induction n generalizing p with
  | zero => rfl
  | succ n ih =>
    have h0 := h 0 (Nat.succ_pos n)
    have ht := ih (p + 1) (fun i hi => by
      have := h (i + 1) (Nat.succ_lt_succ hi)
      rwa [Nat.add_assoc, Nat.add_comm 1 i])
    rw [Nat.add_zero, Option.isSome_iff_exists] at h0
    rw [Option.isSome_iff_exists] at ht
    obtain ⟨b, hb⟩ := h0
    obtain ⟨t, ht⟩ := ht
    simp [hostLoad, hb, ht]

theorem hostLoad_getElem? (hs : HostSpace) (p n : Nat) (bs : List Byte)
    (h : hostLoad hs p n = some bs) (i : Nat) (hi : i < n) : bs[i]? = hs (p + i) := by
  induction n generalizing p bs i with
  | zero => omega
  | succ n ih =>
    rw [hostLoad] at h
    cases hb : hs p with
    | none => simp [hb] at h
    | some b =>
      cases ht : hostLoad hs (p + 1) n with
      | none => simp [hb, ht] at h
      | some t =>
        simp only [hb, ht, Option.some.injEq] at h
        subst h
        cases i with
        | zero => simp [hb]
        | succ i =>
          rw [List.getElem?_cons_succ, ih (p + 1) t ht i (by omega)]
          congr 1
          omega

/-- What `RDRAMWriteWordUnaligned` stores: when it completes, the buffer byte
at `a + i` is the byte of the host's address space at address `data + i`, for
every `i` below the size. -/
theorem unaligned_write_stores_host_bytes (hs : HostSpace) (c : RDRAMController) (a : Nat)
    (d : UnalignedData) (r : Int × RDRAMController)
    (hfit : c.memory.length < 2 ^ 32)
    (ha : a + d.size ≤ c.memory.length)
    (hr : RDRAMWriteWordUnaligned hs c a d = some r) (i : Nat) (hi : i < d.size) :
    r.2.memory[a + i]? = hs (d.data + i) := by
  have ha32 : a < 2 ^ 32 := by omega
  simp only [RDRAMWriteWordUnaligned, sub32_RDRAM_BASE a ha32] at hr
  cases hsrc : hostLoad hs d.data d.size with
  | none => simp [hsrc] at hr
  | some src =>
    simp only [hsrc, Option.some.injEq] at hr
    subst hr
    have hsl := hostLoad_length hs d.data d.size src hsrc
    have hin : a ≤ a + i ∧ a + i < a + src.length ∧ a + i < c.memory.length := by
      rw [hsl]
      omega
    simp only [getElem?_memcpyTo, if_pos hin, Nat.add_sub_cancel_left]
    exact hostLoad_getElem? hs d.data d.size src hsrc i hi

/-- C8: for every controller state, every byte count `n` from 1 to 4 and
every offset `a` with `a + n ≤ 0x800000`, `RDRAMWriteWordUnaligned` with size
`n` at `a` completes whenever the bytes `memcpy` reads are mapped, and
whenever it completes the buffer keeps its length and every byte at an offset
below `a` or at or above `a + n` is what it was. -/
theorem unaligned_write_containment (hs : HostSpace) (c : RDRAMController) (a : Nat)
    (d : UnalignedData)
    (hlen : c.memory.length = 0x800000)
    (h1 : 1 ≤ d.size) (h4 : d.size ≤ 4)
    (ha : a + d.size ≤ 0x800000) :
    ((∀ i, i < d.size → (hs (d.data + i)).isSome = true) →
        (RDRAMWriteWordUnaligned hs c a d).isSome = true) ∧
      ∀ r, RDRAMWriteWordUnaligned hs c a d = some r →
        r.2.memory.length = 0x800000 ∧
        ∀ j, j < a ∨ a + d.size ≤ j → r.2.memory[j]? = c.memory[j]? := by
  have ha32 : a < 2 ^ 32 := by omega
  constructor
  · intro hmapped
    have := hostLoad_isSome hs d.data d.size hmapped
    rw [Option.isSome_iff_exists] at this
    obtain ⟨src, hsrc⟩ := this
    simp [RDRAMWriteWordUnaligned, hsrc]
  · intro r hr
    simp only [RDRAMWriteWordUnaligned, sub32_RDRAM_BASE a ha32] at hr
    cases hsrc : hostLoad hs d.data d.size with
    | none => simp [hsrc] at hr
    | some src =>
      simp only [hsrc, Option.some.injEq] at hr
      subst hr
      have hsl := hostLoad_length hs d.data d.size src hsrc
      refine ⟨by simp only [length_memcpyTo, hlen], ?_⟩
      intro j hj
      have hout : ¬ (a ≤ j ∧ j < a + src.length ∧ j < c.memory.length) := by
        rw [hsl]
        omega
      simp only [getElem?_memcpyTo, if_neg hout]

/-- C8 at a concrete input: three bytes written at offset 0x101 of a fresh
buffer; the call completes and the byte at 0x100 is as it was. -/
theorem unaligned_write_containment_witness :
    (RDRAMWriteWordUnaligned (fun _ => some 0xAA) (InitRDRAM sampleEnums) 0x101
        { data := 0x11223344, size := 3 }).isSome = true ∧
    (RDRAMWriteWordUnaligned (fun _ => some 0xAA) (InitRDRAM sampleEnums) 0x101
        { data := 0x11223344, size := 3 }).map (fun r => r.2.memory[0x100]?) =
      some ((InitRDRAM sampleEnums).memory[0x100]?) := by
  have T := unaligned_write_containment (fun _ => some 0xAA) (InitRDRAM sampleEnums) 0x101
    { data := 0x11223344, size := 3 } (InitRDRAM_memory_length sampleEnums)
    (by decide) (by decide) (by decide)
  have hsome := T.1 (fun _ _ => rfl)
  refine ⟨hsome, ?_⟩
  rw [Option.isSome_iff_exists] at hsome
  obtain ⟨r, hr⟩ := hsome
  rw [hr, Option.map_some']
  exact congrArg some ((T.2 r hr).2 0x100 (by decide))

/-- C9, evaluated at the data word 0x11223344 with size 4 written at offset
0x100: the four bytes stored are the bytes the host's address space holds at
address 0x11223344 (0xAA.. in one address space, 0x55.. in another, and no
result at all where that address is unmapped), not the bytes of the data word
in either byte order. -/
theorem unaligned_write_copies_from_host_address :
    (RDRAMWriteWordUnaligned (fun _ => some 0xAA) (InitRDRAM sampleEnums) 0x100
        { data := 0x11223344, size := 4 }).map (fun r => memcpyFrom r.2.memory 0x100 4)
      = some [0xAA, 0xAA, 0xAA, 0xAA] ∧
    (RDRAMWriteWordUnaligned (fun _ => some 0x55) (InitRDRAM sampleEnums) 0x100
        { data := 0x11223344, size := 4 }).map (fun r => memcpyFrom r.2.memory 0x100 4)
      = some [0x55, 0x55, 0x55, 0x55] ∧
    RDRAMWriteWordUnaligned (fun _ => none) (InitRDRAM sampleEnums) 0x100
        { data := 0x11223344, size := 4 } = none ∧
    objectBytes .littleEndian 4 0x11223344 = [0x44, 0x33, 0x22, 0x11] ∧
    objectBytes .bigEndian 4 0x11223344 = [0x11, 0x22, 0x33, 0x44] := by
  have hfit : ∀ src : List Byte, src.length = 4 →
      memcpyFrom (memcpyTo (InitRDRAM sampleEnums).memory 0x100 src) 0x100 4 = src := by
    intro src hsrc
    have := memcpyFrom_memcpyTo (InitRDRAM sampleEnums).memory 0x100 src
      (by rw [hsrc, InitRDRAM_memory_length]; decide)
    rw [hsrc] at this
    exact this
  have hbase : sub32 0x100 RDRAM_BASE_ADDRESS = 0x100 := by decide
  refine ⟨?_, ?_, ?_, by decide, by decide⟩
  · have hl : hostLoad (fun _ => some (0xAA : Byte)) 0x11223344 4
        = some [0xAA, 0xAA, 0xAA, 0xAA] := rfl
    simp only [RDRAMWriteWordUnaligned, hl, hbase, Option.map_some']
    rw [hfit [0xAA, 0xAA, 0xAA, 0xAA] rfl]
  · have hl : hostLoad (fun _ => some (0x55 : Byte)) 0x11223344 4
        = some [0x55, 0x55, 0x55, 0x55] := rfl
    simp only [RDRAMWriteWordUnaligned, hl, hbase, Option.map_some']
    rw [hfit [0x55, 0x55, 0x55, 0x55] rfl]
  · have hl : hostLoad (fun _ => none) 0x11223344 4 = none := rfl
    simp only [RDRAMWriteWordUnaligned, hl]

/-- C10: for every controller state, every offset `a` and length `L` with
`a + L ≤ 0x800000` (zero, the whole buffer and offsets that are no multiple
of 4 included) and every external buffer `B` of `L` bytes, `CopyToDRAM` of `B`
at `a` followed by `CopyFromDRAM` of `L` bytes from `a` gives back `B`. -/
theorem copy_to_then_from (c : RDRAMController) (a L : Nat) (B : List Byte)
    (hlen : c.memory.length = 0x800000)
    (hB : B.length = L)
    (ha : a + L ≤ 0x800000) :
    CopyFromDRAM (CopyToDRAM c a B L) a L = B := by
  have htake : B.take L = B := by rw [← hB, List.take_length]
  have key := memcpyFrom_memcpyTo c.memory a B (by rw [hB, hlen]; exact ha)
  rw [hB] at key
  simp only [CopyFromDRAM, CopyToDRAM, htake, key]

/-- C10 at a concrete input: three bytes at the odd offset 5. -/
theorem copy_to_then_from_witness :
    CopyFromDRAM (CopyToDRAM (InitRDRAM sampleEnums) 5 [1, 2, 3] 3) 5 3 = [1, 2, 3] :=
  copy_to_then_from (InitRDRAM sampleEnums) 5 3 [1, 2, 3]
    (InitRDRAM_memory_length sampleEnums) rfl (by decide)

/-! ## Register slots -/

theorem sub32_of_le (a base : Nat) (h1 : base ≤ a) (h2 : a < 2 ^ 32) :
    sub32 a base = a - base := by
  simp only [sub32]
  omega

/-- C11: with eight interface slots and ten device slots, for every address
of the interface bank's range `[0x04700000, 0x04700000 + 0x20)` the slot that
`RIRegRead` and `RIRegWrite` index, `(address - 0x04700000) / 4`, is below
`NUM_RI_REGISTERS`, and for every address of the device bank's range
`[0x03F00000, 0x03F00000 + 0x28)` the slot that `RDRAMRegRead` and
`RDRAMRegWrite` index, `(address - 0x03F00000) / 4`, is below
`NUM_RDRAM_REGISTERS`: the access stays inside the array. -/
theorem register_slot_in_range (E : RegisterEnums) (c : RDRAMController) (address data : Nat)
    (hri : E.NUM_RI_REGISTERS = 8)
    (hrd : E.NUM_RDRAM_REGISTERS = 10)
    (hregs : c.regs.length = E.NUM_RI_REGISTERS)
    (hrdregs : c.rdramregs.length = E.NUM_RDRAM_REGISTERS) :
    (RI_REGS_BASE_ADDRESS ≤ address → address < RI_REGS_BASE_ADDRESS + RI_REGS_ADDRESS_LEN →
        (address - 0x04700000) / 4 < E.NUM_RI_REGISTERS ∧
        (address - 0x04700000) / 4 < c.regs.length ∧
        RIRegRead c address = (0, c.regs.getD ((address - 0x04700000) / 4) 0) ∧
        (RIRegWrite c address data).2.regs =
          c.regs.set ((address - 0x04700000) / 4) (data % 2 ^ 32)) ∧
      (RDRAM_REGS_BASE_ADDRESS ≤ address →
        address < RDRAM_REGS_BASE_ADDRESS + RDRAM_REGS_ADDRESS_LEN →
        (address - 0x03F00000) / 4 < E.NUM_RDRAM_REGISTERS ∧
        (address - 0x03F00000) / 4 < c.rdramregs.length ∧
        RDRAMRegRead c address = (0, c.rdramregs.getD ((address - 0x03F00000) / 4) 0) ∧
        (RDRAMRegWrite c address data).2.rdramregs =
          c.rdramregs.set ((address - 0x03F00000) / 4) (data % 2 ^ 32)) := by
  constructor
  · intro h1 h2
    simp only [RI_REGS_BASE_ADDRESS, RI_REGS_ADDRESS_LEN] at h1 h2
    have hs : sub32 address RI_REGS_BASE_ADDRESS = address - 0x04700000 :=
      sub32_of_le address _ h1 (by omega)
    have hlt : (address - 0x04700000) / 4 < E.NUM_RI_REGISTERS := by omega
    refine ⟨hlt, by omega, ?_, ?_⟩
    · simp only [RIRegRead, hs]
    · simp only [RIRegWrite, hs]
  · intro h1 h2
    simp only [RDRAM_REGS_BASE_ADDRESS, RDRAM_REGS_ADDRESS_LEN] at h1 h2
    have hs : sub32 address RDRAM_REGS_BASE_ADDRESS = address - 0x03F00000 :=
      sub32_of_le address _ h1 (by omega)
    have hlt : (address - 0x03F00000) / 4 < E.NUM_RDRAM_REGISTERS := by omega
    refine ⟨hlt, by omega, ?_, ?_⟩
    · simp only [RDRAMRegRead, hs]
    · simp only [RDRAMRegWrite, hs]

/-- C11 at a concrete input: the last byte of the interface bank's range,
0x0470001F, falls into slot 7 of 8. -/
theorem register_slot_in_range_witness :
    (0x0470001F - 0x04700000) / 4 < sampleEnums.NUM_RI_REGISTERS :=
  ((register_slot_in_range sampleEnums (InitRDRAM sampleEnums) 0x0470001F 0 rfl rfl
    (by simp [InitRDRAM]) (by simp [InitRDRAM])).1 (by decide) (by decide)).1

/-- C18: for every slot `i` of a bank, every `k` in {0,1,2,3} and every 32-bit
`v`, the register read at `base + 4*i + k` returns the whole word of slot `i`,
as the read at `base + 4*i` does, and the register write at `base + 4*i + k`
puts the whole of `v` into slot `i`, as the write at `base + 4*i` does; for
the interface bank (`base` = 0x04700000) and the device bank (`base` =
0x03F00000). -/
theorem register_access_within_slot (E : RegisterEnums) (c : RDRAMController) (i k v : Nat)
    (hregs : c.regs.length = E.NUM_RI_REGISTERS)
    (hrdregs : c.rdramregs.length = E.NUM_RDRAM_REGISTERS)
    (hk : k < 4)
    (hv : v < 2 ^ 32) :
    (i < E.NUM_RI_REGISTERS → 0x04700000 + 4 * i + k < 2 ^ 32 →
        c.regs[i]? = some (RIRegRead c (0x04700000 + 4 * i + k)).2 ∧
        RIRegRead c (0x04700000 + 4 * i + k) = RIRegRead c (0x04700000 + 4 * i) ∧
        (RIRegWrite c (0x04700000 + 4 * i + k) v).2.regs = c.regs.set i v ∧
        RIRegWrite c (0x04700000 + 4 * i + k) v = RIRegWrite c (0x04700000 + 4 * i) v) ∧
      (i < E.NUM_RDRAM_REGISTERS → 0x03F00000 + 4 * i + k < 2 ^ 32 →
        c.rdramregs[i]? = some (RDRAMRegRead c (0x03F00000 + 4 * i + k)).2 ∧
        RDRAMRegRead c (0x03F00000 + 4 * i + k) = RDRAMRegRead c (0x03F00000 + 4 * i) ∧
        (RDRAMRegWrite c (0x03F00000 + 4 * i + k) v).2.rdramregs = c.rdramregs.set i v ∧
        RDRAMRegWrite c (0x03F00000 + 4 * i + k) v = RDRAMRegWrite c (0x03F00000 + 4 * i) v) := by
  constructor
  · intro hi haddr
    have hsk : sub32 (0x04700000 + 4 * i + k) RI_REGS_BASE_ADDRESS / 4 = i := by
      rw [RI_REGS_BASE_ADDRESS, Nat.add_assoc, sub32_add_base _ _ (by omega)]
      omega
    have hs0 : sub32 (0x04700000 + 4 * i) RI_REGS_BASE_ADDRESS / 4 = i := by
      rw [RI_REGS_BASE_ADDRESS, sub32_add_base _ _ (by omega)]
      omega
    have hi2 : i < c.regs.length := by rw [hregs]; exact hi
    refine ⟨?_, ?_, ?_, ?_⟩
    · simp only [RIRegRead, hsk, List.getD_eq_getElem?_getD, List.getElem?_eq_getElem hi2,
        Option.getD_some]
    · simp only [RIRegRead, hsk, hs0]
    · simp only [RIRegWrite, hsk, Nat.mod_eq_of_lt hv]
    · simp only [RIRegWrite, hsk, hs0]
  · intro hi haddr
    have hsk : sub32 (0x03F00000 + 4 * i + k) RDRAM_REGS_BASE_ADDRESS / 4 = i := by
      rw [RDRAM_REGS_BASE_ADDRESS, Nat.add_assoc, sub32_add_base _ _ (by omega)]
      omega
    have hs0 : sub32 (0x03F00000 + 4 * i) RDRAM_REGS_BASE_ADDRESS / 4 = i := by
      rw [RDRAM_REGS_BASE_ADDRESS, sub32_add_base _ _ (by omega)]
      omega
    have hi2 : i < c.rdramregs.length := by rw [hrdregs]; exact hi
    refine ⟨?_, ?_, ?_, ?_⟩
    · simp only [RDRAMRegRead, hsk, List.getD_eq_getElem?_getD, List.getElem?_eq_getElem hi2,
        Option.getD_some]
    · simp only [RDRAMRegRead, hsk, hs0]
    · simp only [RDRAMRegWrite, hsk, Nat.mod_eq_of_lt hv]
    · simp only [RDRAMRegWrite, hsk, hs0]

/-- C18 at a concrete input: the interface-register read at offset 4*4 + 3 of
a fresh controller is the read of slot 4. -/
theorem register_access_within_slot_witness :
    RIRegRead (InitRDRAM sampleEnums) (0x04700000 + 4 * 4 + 3) =
      RIRegRead (InitRDRAM sampleEnums) (0x04700000 + 4 * 4) :=
  ((register_access_within_slot sampleEnums (InitRDRAM sampleEnums) 4 3 0
    (by simp [InitRDRAM]) (by simp [InitRDRAM]) (by decide) (by decide)).1
    (by decide) (by decide)).2.1

/-! ## Invariants and frames of the transitions -/

theorem perform_isSome (h : HostOrder) (hs : HostSpace) (c : RDRAMController) (call : Call)
    (hm : ∀ a d, call = .RDRAMWriteWordUnaligned a d →
      ∀ i, i < d.size → (hs (d.data + i)).isSome = true) :
    (perform h hs c call).isSome = true := by
  cases call with
  | RDRAMWriteWordUnaligned a d =>
    have := hostLoad_isSome hs d.data d.size (hm a d rfl)
    rw [Option.isSome_iff_exists] at this
    obtain ⟨src, hsrc⟩ := this
    simp [perform, RDRAMWriteWordUnaligned, hsrc]
  | _ => rfl

theorem perform_memory_length (h : HostOrder) (hs : HostSpace) (c : RDRAMController)
    (call : Call) (r : RDRAMController × Output) (hr : perform h hs c call = some r) :
    r.1.memory.length = c.memory.length := by
  cases call with
  | RDRAMWriteWordUnaligned a d =>
    simp only [perform, RDRAMWriteWordUnaligned] at hr
    cases hsrc : hostLoad hs d.data d.size with
    | none => simp [hsrc] at hr
    | some src =>
      simp only [hsrc, Option.map_some', Option.some.injEq] at hr
      subst hr
      exact length_memcpyTo _ _ _
  | ConnectRDRAMToBus b => simp only [perform, Option.some.injEq] at hr; subst hr; rfl
  | CopyFromDRAM a n => simp only [perform, Option.some.injEq] at hr; subst hr; rfl
  | CopyToDRAM a B n =>
    simp only [perform, Option.some.injEq] at hr; subst hr; exact length_memcpyTo _ _ _
  | GetRDRAMMemoryPointer => simp only [perform, Option.some.injEq] at hr; subst hr; rfl
  | RDRAMReadByte a => simp only [perform, Option.some.injEq] at hr; subst hr; rfl
  | RDRAMReadDWord a => simp only [perform, Option.some.injEq] at hr; subst hr; rfl
  | RDRAMReadHWord a => simp only [perform, Option.some.injEq] at hr; subst hr; rfl
  | RDRAMReadWord a => simp only [perform, Option.some.injEq] at hr; subst hr; rfl
  | RDRAMRegRead a => simp only [perform, Option.some.injEq] at hr; subst hr; rfl
  | RDRAMRegWrite a v => simp only [perform, Option.some.injEq] at hr; subst hr; rfl
  | RDRAMWriteByte a v =>
    simp only [perform, Option.some.injEq] at hr; subst hr; exact length_memcpyTo _ _ _
  | RDRAMWriteDWord a v =>
    simp only [perform, Option.some.injEq] at hr; subst hr; exact length_memcpyTo _ _ _
  | RDRAMWriteHWord a v =>
    simp only [perform, Option.some.injEq] at hr; subst hr; exact length_memcpyTo _ _ _
  | RDRAMWriteWord a v =>
    simp only [perform, Option.some.injEq] at hr; subst hr; exact length_memcpyTo _ _ _
  | RIRegRead a => simp only [perform, Option.some.injEq] at hr; subst hr; rfl
  | RIRegWrite a v => simp only [perform, Option.some.injEq] at hr; subst hr; rfl

/-- C12: the buffer has 0x800000 bytes after construction, and every call on
a controller whose buffer has 0x800000 bytes (a sized RAM write or read, the
unaligned write, a bulk copy either way, a register write or read,
`GetRDRAMMemoryPointer`, `ConnectRDRAMToBus`), the in-bounds ones among them,
leaves a buffer of 0x800000 bytes; every such call completes, the unaligned
write whenever the bytes its `memcpy` reads are mapped. -/
theorem ram_length_invariant (E : RegisterEnums) (h : HostOrder) (hs : HostSpace)
    (c : RDRAMController) (call : Call)
    (hlen : c.memory.length = 0x800000) :
    (InitRDRAM E).memory.length = 0x800000 ∧
      (∀ r, perform h hs c call = some r → r.1.memory.length = 0x800000) ∧
      ((∀ a d, call = .RDRAMWriteWordUnaligned a d →
          ∀ i, i < d.size → (hs (d.data + i)).isSome = true) →
        (perform h hs c call).isSome = true) := by
  refine ⟨InitRDRAM_memory_length E, ?_, perform_isSome h hs c call⟩
  intro r hr
  rw [perform_memory_length h hs c call r hr, hlen]

/-- C12 at a concrete input: a double-word write at the last eight bytes of a
fresh buffer. -/
theorem ram_length_invariant_witness :
    (perform .littleEndian (fun _ => none) (InitRDRAM sampleEnums)
        (.RDRAMWriteDWord 0x7FFFF8 0x0102030405060708)).isSome = true ∧
    (perform .littleEndian (fun _ => none) (InitRDRAM sampleEnums)
        (.RDRAMWriteDWord 0x7FFFF8 0x0102030405060708)).map (fun r => r.1.memory.length) =
      some 0x800000 := by
  have T := ram_length_invariant sampleEnums .littleEndian (fun _ => none)
    (InitRDRAM sampleEnums) (.RDRAMWriteDWord 0x7FFFF8 0x0102030405060708)
    (InitRDRAM_memory_length sampleEnums)
  have hsome := T.2.2 (fun a d hcall => by cases hcall)
  refine ⟨hsome, ?_⟩
  rw [Option.isSome_iff_exists] at hsome
  obtain ⟨r, hr⟩ := hsome
  rw [hr, Option.map_some']
  exact congrArg some (T.2.1 r hr)

theorem perform_code_zero (h : HostOrder) (hs : HostSpace) (c : RDRAMController)
    (call : Call) (r : RDRAMController × Output)
    (hb : call.isBusAccess = true) (hr : perform h hs c call = some r) :
    r.2.code = some 0 := by
  cases call with
  | RDRAMWriteWordUnaligned a d =>
    simp only [perform, RDRAMWriteWordUnaligned] at hr
    cases hsrc : hostLoad hs d.data d.size with
    | none => simp [hsrc] at hr
    | some src =>
      simp only [hsrc, Option.map_some', Option.some.injEq] at hr
      subst hr
      rfl
  | ConnectRDRAMToBus b => simp [Call.isBusAccess] at hb
  | CopyFromDRAM a n => simp [Call.isBusAccess] at hb
  | CopyToDRAM a B n => simp [Call.isBusAccess] at hb
  | GetRDRAMMemoryPointer => simp [Call.isBusAccess] at hb
  | RDRAMReadByte a => simp only [perform, Option.some.injEq] at hr; subst hr; rfl
  | RDRAMReadDWord a => simp only [perform, Option.some.injEq] at hr; subst hr; rfl
  | RDRAMReadHWord a => simp only [perform, Option.some.injEq] at hr; subst hr; rfl
  | RDRAMReadWord a => simp only [perform, Option.some.injEq] at hr; subst hr; rfl
  | RDRAMRegRead a => simp only [perform, Option.some.injEq] at hr; subst hr; rfl
  | RDRAMRegWrite a v => simp only [perform, Option.some.injEq] at hr; subst hr; rfl
  | RDRAMWriteByte a v => simp only [perform, Option.some.injEq] at hr; subst hr; rfl
  | RDRAMWriteDWord a v => simp only [perform, Option.some.injEq] at hr; subst hr; rfl
  | RDRAMWriteHWord a v => simp only [perform, Option.some.injEq] at hr; subst hr; rfl
  | RDRAMWriteWord a v => simp only [perform, Option.some.injEq] at hr; subst hr; rfl
  | RIRegRead a => simp only [perform, Option.some.injEq] at hr; subst hr; rfl
  | RIRegWrite a v => simp only [perform, Option.some.injEq] at hr; subst hr; rfl

/-- Every bus-facing access other than the unaligned write returns, and its
status is 0; the unaligned write has status 0 whenever it returns. -/
theorem bus_access_status (h : HostOrder) (hs : HostSpace) (c : RDRAMController)
    (call : Call) (hb : call.isBusAccess = true) :
    ((∀ a d, call ≠ .RDRAMWriteWordUnaligned a d) →
        (perform h hs c call).map (fun r => r.2.code) = some (some 0)) ∧
      ∀ r, perform h hs c call = some r → r.2.code = some 0 := by
  refine ⟨?_, fun r hr => perform_code_zero h hs c call r hb hr⟩
  intro hne
  have hsome := perform_isSome h hs c call (fun a d hcall => absurd hcall (hne a d))
  rw [Option.isSome_iff_exists] at hsome
  obtain ⟨r, hr⟩ := hsome
  rw [hr, Option.map_some', perform_code_zero h hs c call r hb hr]

/-- C13, evaluated at the unaligned write of the data word 0x11223344 with
size 4 at address 0x100, a call within the bus contract: where the host has
nothing mapped at address 0x11223344 the call hands back no status at all, and
where it has, the status is 0. -/
theorem unaligned_write_status_at_unmapped_source :
    Call.isBusAccess (.RDRAMWriteWordUnaligned 0x100 { data := 0x11223344, size := 4 }) = true ∧
    Call.inRange (.RDRAMWriteWordUnaligned 0x100 { data := 0x11223344, size := 4 }) ∧
    (perform .littleEndian (fun _ => none) (InitRDRAM sampleEnums)
        (.RDRAMWriteWordUnaligned 0x100 { data := 0x11223344, size := 4 })).map
      (fun r => r.2.code) = none ∧
    (perform .littleEndian (fun _ => some 0xAA) (InitRDRAM sampleEnums)
        (.RDRAMWriteWordUnaligned 0x100 { data := 0x11223344, size := 4 })).map
      (fun r => r.2.code) = some (some 0) := by
  refine ⟨rfl, ?_, ?_, ?_⟩
  · show 0 ≤ 0x100 ∧ 0x100 + 4 ≤ 0 + 0x800000
    decide
  · have hl : hostLoad (fun _ => none) 0x11223344 4 = none := rfl
    simp only [perform, RDRAMWriteWordUnaligned, hl, Option.map_none']
  · have hl : hostLoad (fun _ => some (0xAA : Byte)) 0x11223344 4
        = some [0xAA, 0xAA, 0xAA, 0xAA] := rfl
    simp only [perform, RDRAMWriteWordUnaligned, hl, Option.map_some', Output.code]

/-- C14: `ConnectRDRAMToBus` stores the given bus and leaves the buffer and
both register banks as they were; and every call hands back the same and
leaves the same buffer and register banks whether or not the controller was
connected to a bus before it. -/
theorem connect_bus_frame (h : HostOrder) (hs : HostSpace) (c : RDRAMController)
    (bus : Nat) (call : Call) :
    (ConnectRDRAMToBus c bus).bus = some bus ∧
      (ConnectRDRAMToBus c bus).memory = c.memory ∧
      (ConnectRDRAMToBus c bus).regs = c.regs ∧
      (ConnectRDRAMToBus c bus).rdramregs = c.rdramregs ∧
      (perform h hs (ConnectRDRAMToBus c bus) call).map
          (fun r => (r.2, r.1.memory, r.1.regs, r.1.rdramregs)) =
        (perform h hs c call).map (fun r => (r.2, r.1.memory, r.1.regs, r.1.rdramregs)) := by
  refine ⟨rfl, rfl, rfl, rfl, ?_⟩
  cases call with
  | RDRAMWriteWordUnaligned a d =>
    simp only [perform, RDRAMWriteWordUnaligned, ConnectRDRAMToBus]
    cases hostLoad hs d.data d.size <;> rfl
  | _ => rfl

/-- C16: every read-type call (`RDRAMReadByte`, `RDRAMReadHWord`,
`RDRAMReadWord`, `RDRAMReadDWord`, `RDRAMRegRead`, `RIRegRead`,
`CopyFromDRAM`, `GetRDRAMMemoryPointer`) returns and leaves the controller as
it was, buffer, both register banks and bus; the same call on the controller
it leaves hands back the same. -/
theorem read_leaves_state (h : HostOrder) (hs : HostSpace) (c : RDRAMController)
    (call : Call) (hread : call.isRead = true) :
    (perform h hs c call).map Prod.fst = some c ∧
      ∀ r, perform h hs c call = some r → perform h hs r.1 call = some r := by
  cases call with
  | CopyFromDRAM a n => exact ⟨rfl, fun r hr => by
      simp only [perform, Option.some.injEq] at hr; subst hr; rfl⟩
  | GetRDRAMMemoryPointer => exact ⟨rfl, fun r hr => by
      simp only [perform, Option.some.injEq] at hr; subst hr; rfl⟩
  | RDRAMReadByte a => exact ⟨rfl, fun r hr => by
      simp only [perform, Option.some.injEq] at hr; subst hr; rfl⟩
  | RDRAMReadDWord a => exact ⟨rfl, fun r hr => by
      simp only [perform, Option.some.injEq] at hr; subst hr; rfl⟩
  | RDRAMReadHWord a => exact ⟨rfl, fun r hr => by
      simp only [perform, Option.some.injEq] at hr; subst hr; rfl⟩
  | RDRAMReadWord a => exact ⟨rfl, fun r hr => by
      simp only [perform, Option.some.injEq] at hr; subst hr; rfl⟩
  | RDRAMRegRead a => exact ⟨rfl, fun r hr => by
      simp only [perform, Option.some.injEq] at hr; subst hr; rfl⟩
  | RIRegRead a => exact ⟨rfl, fun r hr => by
      simp only [perform, Option.some.injEq] at hr; subst hr; rfl⟩
  | ConnectRDRAMToBus b => simp [Call.isRead] at hread
  | CopyToDRAM a B n => simp [Call.isRead] at hread
  | RDRAMRegWrite a v => simp [Call.isRead] at hread
  | RDRAMWriteByte a v => simp [Call.isRead] at hread
  | RDRAMWriteDWord a v => simp [Call.isRead] at hread
  | RDRAMWriteHWord a v => simp [Call.isRead] at hread
  | RDRAMWriteWord a v => simp [Call.isRead] at hread
  | RDRAMWriteWordUnaligned a d => simp [Call.isRead] at hread
  | RIRegWrite a v => simp [Call.isRead] at hread

/-- C16 at a concrete input: a word read at 0x100 of a fresh controller. -/
theorem read_leaves_state_witness :
    (perform .littleEndian (fun _ => none) (InitRDRAM sampleEnums) (.RDRAMReadWord 0x100)).map
      Prod.fst = some (InitRDRAM sampleEnums) :=
  (read_leaves_state .littleEndian (fun _ => none) (InitRDRAM sampleEnums)
    (.RDRAMReadWord 0x100) rfl).1

/-- C15: for every width, every in-bounds address `a` and every value `v`,
the sized write at `a` leaves every buffer byte outside `[a, a+w)` and both
register banks as they were; `RIRegWrite` and `RDRAMRegWrite` leave the whole
buffer as it was. -/
theorem sized_write_frame (h : HostOrder) (w : Width) (c : RDRAMController)
    (a v addr d : Nat)
    (ha : a + w.size ≤ RDRAM_ADDRESS_LEN) :
    (∀ j, j < a ∨ a + w.size ≤ j → (ramWrite h w c a v).2.memory[j]? = c.memory[j]?) ∧
      (ramWrite h w c a v).2.regs = c.regs ∧
      (ramWrite h w c a v).2.rdramregs = c.rdramregs ∧
      (RIRegWrite c addr d).2.memory = c.memory ∧
      (RDRAMRegWrite c addr d).2.memory = c.memory := by
  have ha32 : a < 2 ^ 32 := by
    simp only [RDRAM_ADDRESS_LEN] at ha
    omega
  refine ⟨?_, ?_, ?_, rfl, rfl⟩
  · intro j hj
    have hout : ¬ (a ≤ j ∧
        j < a + (leBytes w.size (v % 2 ^ (8 * w.size))).reverse.length ∧
        j < c.memory.length) := by
      rw [List.length_reverse, length_leBytes]
      omega
    rw [ramWrite_eq, sub32_RDRAM_BASE a ha32]
    simp only [getElem?_memcpyTo, if_neg hout]
  · rw [ramWrite_eq]
  · rw [ramWrite_eq]

/-- C15 at a concrete input: a word written at 0x100 leaves the byte at 0x104
as it was. -/
theorem sized_write_frame_witness :
    (ramWrite .littleEndian .word (InitRDRAM sampleEnums) 0x100 0xDEADBEEF).2.memory[0x104]? =
      (InitRDRAM sampleEnums).memory[0x104]? :=
  (sized_write_frame .littleEndian .word (InitRDRAM sampleEnums) 0x100 0xDEADBEEF 0 0
    (by decide)).1 0x104 (by decide)

/-! ## Wider accesses from narrower ones -/

theorem leValue_append (l1 l2 : List Byte) :
    leValue (l1 ++ l2) = leValue l1 + 256 ^ l1.length * leValue l2 := by
  induction l1 with
  | nil => simp [leValue]
  | cons b t ih =>
    show b.val + 256 * leValue (t ++ l2) =
      (b.val + 256 * leValue t) + 256 ^ (t.length + 1) * leValue l2
    rw [ih]
    ring

theorem memcpyFrom_add (mem : List Byte) (a m n : Nat) :
    memcpyFrom mem a (m + n) = memcpyFrom mem a m ++ memcpyFrom mem (a + m) n := by
  simp only [memcpyFrom, List.take_add, List.drop_drop, Nat.add_comm]

theorem memcpyTo_append (mem : List Byte) (off : Nat) (s1 s2 : List Byte) :
    memcpyTo mem off (s1 ++ s2) = memcpyTo (memcpyTo mem off s1) (off + s1.length) s2 := by
  induction s1 generalizing mem off with
  | nil => rfl
  | cons b t ih =>
    show memcpyTo (mem.set off b) (off + 1) (t ++ s2) =
      memcpyTo (memcpyTo (mem.set off b) (off + 1) t) (off + (t.length + 1)) s2
    rw [ih, Nat.add_assoc, Nat.add_comm 1 t.length]

theorem leBytes_add (m n x : Nat) :
    leBytes (m + n) x = leBytes m x ++ leBytes n (x / 256 ^ m) := by
  induction m generalizing x with
  | zero => simp [leBytes]
  | succ m ih =>
    have : m + 1 + n = (m + n) + 1 := by omega
    rw [this]
    simp only [leBytes, ih, List.cons_append, Nat.div_div_eq_div_mul, pow_succ]
    rw [Nat.mul_comm 256 (256 ^ m)]

theorem leBytes_mod (w x : Nat) : leBytes w (x % 256 ^ w) = leBytes w x := by
  have h1 := leBytes_leValue (leBytes w x)
  rw [length_leBytes, leValue_leBytes] at h1
  exact h1

/-- The big-endian value of `m + n` bytes is the value of the first `m` bytes
shifted left by `8 * n` bits, or-ed with the value of the last `n` bytes. -/
theorem bigEndian_split (mem : List Byte) (a m n : Nat) (hb : a + (m + n) ≤ mem.length) :
    leValue (memcpyFrom mem a (m + n)).reverse =
      (leValue (memcpyFrom mem a m).reverse <<< (8 * n)) |||
        leValue (memcpyFrom mem (a + m) n).reverse := by
  have hn : (memcpyFrom mem (a + m) n).length = n :=
    length_memcpyFrom mem (a + m) n (by omega)
  have hlt := leValue_lt (memcpyFrom mem (a + m) n).reverse
  rw [List.length_reverse, hn, ← pow_two_eight_mul] at hlt
  rw [memcpyFrom_add, List.reverse_append, leValue_append, List.length_reverse, hn,
    Nat.shiftLeft_eq, ← pow_two_eight_mul, Nat.add_comm,
    Nat.mul_comm (leValue (memcpyFrom mem a m).reverse)]
  exact Nat.mul_add_lt_is_or hlt _

theorem RDRAMReadByte_eq (c : RDRAMController) (a : Nat)
    (ha : a + 1 ≤ c.memory.length) (hfit : c.memory.length < 2 ^ 32) :
    RDRAMReadByte c a = (0, (c.memory.getD a 0).val) := by
  have hbyte := ramRead_eq_sum .littleEndian .byte c a ha hfit
  simpa [ramRead, Width.size, GetRDRAMMemoryPointer] using hbyte

/-- C17: for every buffer content and every address in bounds for the wider
access, `RDRAMReadHWord(a) = (RDRAMReadByte(a) << 8) | RDRAMReadByte(a+1)`,
`RDRAMReadWord(a) = (RDRAMReadHWord(a) << 16) | RDRAMReadHWord(a+2)`,
`RDRAMReadDWord(a) = (RDRAMReadWord(a) << 32) | RDRAMReadWord(a+4)`, and
`RDRAMWriteWord` of a 32-bit `v` at `a` leaves the controller that
`RDRAMWriteHWord` of `v >> 16` at `a` followed by `RDRAMWriteHWord` of
`v & 0xFFFF` at `a + 2` leaves. -/
theorem wide_access_composition (h : HostOrder) (c : RDRAMController) (a v : Nat)
    (hlen : c.memory.length = RDRAM_ADDRESS_LEN) :
    (a + 2 ≤ RDRAM_ADDRESS_LEN →
        (RDRAMReadHWord h c a).2 =
          ((RDRAMReadByte c a).2 <<< 8) ||| (RDRAMReadByte c (a + 1)).2) ∧
      (a + 4 ≤ RDRAM_ADDRESS_LEN →
        (RDRAMReadWord h c a).2 =
          ((RDRAMReadHWord h c a).2 <<< 16) ||| (RDRAMReadHWord h c (a + 2)).2) ∧
      (a + 8 ≤ RDRAM_ADDRESS_LEN →
        (RDRAMReadDWord h c a).2 =
          ((RDRAMReadWord h c a).2 <<< 32) ||| (RDRAMReadWord h c (a + 4)).2) ∧
      (a + 4 ≤ RDRAM_ADDRESS_LEN → v < 2 ^ 32 →
        (RDRAMWriteWord h c a v).2 =
          (RDRAMWriteHWord h (RDRAMWriteHWord h c a (v >>> 16)).2 (a + 2) (v &&& 0xFFFF)).2) := by
  have hL : RDRAM_ADDRESS_LEN = 0x800000 := rfl
  have rd : ∀ (w : Width) (x : Nat), x + w.size ≤ RDRAM_ADDRESS_LEN →
      (ramRead h w c x).2 = leValue (memcpyFrom c.memory x w.size).reverse := by
    intro w x hx
    have hx32 : x < 2 ^ 32 := by omega
    have := ramRead_eq h w c x (by rw [sub32_RDRAM_BASE x hx32, hlen]; exact hx)
    rw [this, sub32_RDRAM_BASE x hx32]
  refine ⟨?_, ?_, ?_, ?_⟩
  · intro ha
    have r2 := rd .hword a ha
    have r1a := rd .byte a (by simp only [Width.size]; omega)
    have r1b := rd .byte (a + 1) (by simp only [Width.size]; omega)
    simp only [ramRead, Width.size] at r2 r1a r1b
    rw [r2, r1a, r1b]
    exact bigEndian_split c.memory a 1 1 (by rw [hlen]; omega)
  · intro ha
    have r4 := rd .word a ha
    have r2a := rd .hword a (by simp only [Width.size]; omega)
    have r2b := rd .hword (a + 2) (by simp only [Width.size]; omega)
    simp only [ramRead, Width.size] at r4 r2a r2b
    rw [r4, r2a, r2b]
    exact bigEndian_split c.memory a 2 2 (by rw [hlen]; omega)
  · intro ha
    have r8 := rd .dword a ha
    have r4a := rd .word a (by simp only [Width.size]; omega)
    have r4b := rd .word (a + 4) (by simp only [Width.size]; omega)
    simp only [ramRead, Width.size] at r8 r4a r4b
    rw [r8, r4a, r4b]
    exact bigEndian_split c.memory a 4 4 (by rw [hlen]; omega)
  · intro ha hv
    have ha32 : a < 2 ^ 32 := by omega
    have ha32' : a + 2 < 2 ^ 32 := by omega
    have w4 := ramWrite_eq h .word c a v
    have w2a := ramWrite_eq h .hword c a (v >>> 16)
    have w2b := ramWrite_eq h .hword (RDRAMWriteHWord h c a (v >>> 16)).2 (a + 2) (v &&& 0xFFFF)
    simp only [ramWrite, Width.size] at w4 w2a w2b
    have hff : (0xFFFF : Nat) = 2 ^ 16 - 1 := by norm_num
    have e1 : (8 : Nat) * 4 = 32 := rfl
    have e2 : (8 : Nat) * 2 = 16 := rfl
    have hhi : leBytes 2 (v >>> 16 % 2 ^ 16) = leBytes 2 (v / 256 ^ 2) := by
      have := leBytes_mod 2 (v >>> 16)
      rw [Nat.shiftRight_eq_div_pow] at this ⊢
      have e : (256 : Nat) ^ 2 = 2 ^ 16 := by norm_num
      rw [e] at this ⊢
      exact this
    have hlo : leBytes 2 ((v &&& 0xFFFF) % 2 ^ 16) = leBytes 2 v := by
      rw [hff, Nat.and_pow_two_sub_one_eq_mod, Nat.mod_mod]
      have e : (2 : Nat) ^ 16 = 256 ^ 2 := by norm_num
      rw [e]
      exact leBytes_mod 2 v
    have hsplit : (leBytes 4 v).reverse = (leBytes 2 (v / 256 ^ 2)).reverse ++ (leBytes 2 v).reverse := by
      rw [← List.reverse_append, ← leBytes_add 2 2 v]
    rw [w4, w2b, w2a, e1, e2, Nat.mod_eq_of_lt hv, hhi, hlo, sub32_RDRAM_BASE a ha32,
      sub32_RDRAM_BASE (a + 2) ha32', hsplit, memcpyTo_append, List.length_reverse,
      length_leBytes]

/-- C17 at a concrete input: the word at 0x102 of a buffer that holds the
double word 0x1122334455667788 at 0x100, from its two half-words. -/
theorem wide_access_composition_witness :
    (RDRAMReadWord .littleEndian
        (ramWrite .bigEndian .dword (InitRDRAM sampleEnums) 0x100 0x1122334455667788).2
        0x102).2 =
      ((RDRAMReadHWord .littleEndian
          (ramWrite .bigEndian .dword (InitRDRAM sampleEnums) 0x100 0x1122334455667788).2
          0x102).2 <<< 16) |||
        (RDRAMReadHWord .littleEndian
          (ramWrite .bigEndian .dword (InitRDRAM sampleEnums) 0x100 0x1122334455667788).2
          (0x102 + 2)).2 :=
  (wide_access_composition .littleEndian
    (ramWrite .bigEndian .dword (InitRDRAM sampleEnums) 0x100 0x1122334455667788).2 0x102 0
    (by rw [ramWrite_eq]; exact (length_memcpyTo _ _ _).trans (InitRDRAM_memory_length _))).2.1
    (by decide)

/-! ## Bulk copies and byte accesses -/

theorem writeBytewise_eq (c : RDRAMController) (a : Nat) (B : List Byte)
    (ha : a + B.length ≤ 2 ^ 32) :
    writeBytewise c a B = { c with memory := memcpyTo c.memory a B } := by
  induction B generalizing c a with
  | nil => rfl
  | cons b t ih =>
    have hb := b.isLt
    have ha32 : a < 2 ^ 32 := by
      rw [List.length_cons] at ha
      omega
    have hbyte : toByte (b.val % 2 ^ 8) = b := by
      apply Fin.ext
      show b.val % 2 ^ 8 % 256 = b.val
      omega
    rw [writeBytewise, ih _ (a + 1) (by rw [List.length_cons] at ha; omega)]
    simp only [RDRAMWriteByte, sub32_RDRAM_BASE a ha32, hbyte, memcpyTo]

/-- C19: for every controller whose buffer has 0x800000 bytes, every offset
`a` and length `L` with `a + L ≤ 0x800000` and every buffer `B` of `L` bytes:
byte `i` of what `CopyFromDRAM(a, L)` delivers is the value `RDRAMReadByte`
returns at `a + i`, for every `i < L`; `CopyToDRAM` of `B` at `a` leaves the
controller that `RDRAMWriteByte` of `B[i]` at `a + i` for `i = 0 .. L-1`
leaves; it changes no byte outside `[a, a+L)`; and with `L = 0` it leaves the
controller unchanged. -/
theorem bulk_copy_bytewise (c : RDRAMController) (a L : Nat) (B : List Byte)
    (hlen : c.memory.length = 0x800000)
    (ha : a + L ≤ 0x800000)
    (hB : B.length = L) :
    (∀ i, i < L →
        ((CopyFromDRAM c a L)[i]?).map Fin.val = some (RDRAMReadByte c (a + i)).2) ∧
      CopyToDRAM c a B L = writeBytewise c a B ∧
      (∀ j, j < a ∨ a + L ≤ j → (CopyToDRAM c a B L).memory[j]? = c.memory[j]?) ∧
      CopyToDRAM c a B 0 = c := by
  have htake : B.take L = B := by rw [← hB, List.take_length]
  refine ⟨?_, ?_, ?_, ?_⟩
  · intro i hi
    have hin : a + i < c.memory.length := by omega
    rw [RDRAMReadByte_eq c (a + i) (by omega) (by omega), CopyFromDRAM, getElem?_memcpyFrom,
      if_pos hi, List.getD_eq_getElem?_getD, List.getElem?_eq_getElem hin]
    rfl
  · rw [writeBytewise_eq c a B (by omega)]
    simp only [CopyToDRAM, htake]
  · intro j hj
    have hout : ¬ (a ≤ j ∧ j < a + B.length ∧ j < c.memory.length) := by omega
    simp only [CopyToDRAM, htake, getElem?_memcpyTo, if_neg hout]
  · simp only [CopyToDRAM, List.take_zero, memcpyTo]

/-- C19 at a concrete input: three bytes copied to the odd offset 5 of a fresh
controller, against three byte writes. -/
theorem bulk_copy_bytewise_witness :
    CopyToDRAM (InitRDRAM sampleEnums) 5 [1, 2, 3] 3 =
      writeBytewise (InitRDRAM sampleEnums) 5 [1, 2, 3] :=
  (bulk_copy_bytewise (InitRDRAM sampleEnums) 5 3 [1, 2, 3]
    (InitRDRAM_memory_length sampleEnums) (by decide) rfl).2.1

end RDRAM
